import Mathlib

/- Verification of the view-graph pose-resolution engine of the
multiview_calib repository (calibration.py, point_set_registration.py,
utils.py) against its specification.

Machine reals are modelled exactly over ℚ.  The two numeric primitives that
are irrational over ℚ (the Euclidean vector norm and the square root used by
numpy) and the LAPACK-backed `scipy.linalg.orthogonal_procrustes` call are
passed as explicit oracle parameters; the properties those oracles are known
to satisfy appear as hypotheses of the theorems that need them. -/

namespace MVCalib

/-- View identifiers (the Python code uses opaque hashable ids). -/
abbrev V : Type := ℕ

/-- 3-vectors over ℚ (one triangulated point, or a translation). -/
abbrev Pt : Type := Fin 3 → ℚ

/-- 3×3 matrices over ℚ (rotations, fundamental-matrix-free model). -/
abbrev Mat : Type := Matrix (Fin 3) (Fin 3) ℚ

/- ===================================================================
   Section 1: `verify_view_tree` (calibration.py lines 17-32).
   The Python function builds an `nx.DiGraph` from the edge list, declares
   the tree cycle-free iff `nx.find_cycle` raises, and checks that the
   undirected version of that graph has exactly one connected component.
   Reachability of the finite graph is computed by iterating a one-step
   successor closure enough times to reach its fixpoint.
   =================================================================== -/

/-- All vertices occurring in a directed edge list (the node set of the
`nx.DiGraph` built by `verify_view_tree`). -/
def nodesOf (E : List (V × V)) : List V :=
  ((E.map Prod.fst) ++ (E.map Prod.snd)).dedup

/-- Directed successors of a vertex in the edge list. -/
def succsOf (E : List (V × V)) (v : V) : List V :=
  (E.filter (fun e => decide (e.1 = v))).map Prod.snd

/-- One step of the reachability closure: keep the current set and add all
direct successors of its members. -/
def reachStep (E : List (V × V)) (s : Finset V) : Finset V :=
  s ∪ s.biUnion (fun v => (succsOf E v).toFinset)

/-- `n`-fold iteration of the closure step starting from `{v}`. -/
def reachN (E : List (V × V)) (n : ℕ) (v : V) : Finset V :=
  (reachStep E)^[n] {v}

/-- Enough iterations to reach the closure fixpoint on this edge list. -/
def searchFuel (E : List (V × V)) : ℕ := (nodesOf E).length + 1

/-- The full set of vertices reachable from `v` along directed edges. -/
def reachF (E : List (V × V)) (v : V) : Finset V := reachN E (searchFuel E) v

/-- Embedding of the `nx.algorithms.cycles.find_cycle` success test on the
directed graph of the edge list: some edge `(v, w)` closes back on `v`. -/
def hasDirectedCycleB (E : List (V × V)) : Bool :=
  (nodesOf E).any (fun v => (succsOf E v).any (fun w => decide (v ∈ reachF E w)))

/-- The symmetrised edge list (`G.to_undirected()`). -/
def symE (E : List (V × V)) : List (V × V) := E ++ E.map (fun e => (e.2, e.1))

/-- Embedding of `nx.number_connected_components(G.to_undirected()) == 1`:
the vertex set is nonempty and every vertex is reachable from a fixed one
through the symmetrised edges. -/
def connectedOneB (E : List (V × V)) : Bool :=
  match nodesOf E with
  | [] => false
  | v :: _ => (nodesOf E).all (fun w => decide (w ∈ reachF (symE E) v))

/-- `calibration.verify_view_tree`: valid iff no directed cycle was found and
the undirected graph of the edge list has exactly one connected component. -/
def verify_view_tree (E : List (V × V)) : Bool :=
  !hasDirectedCycleB E && connectedOneB E

/-- One directed edge step (specification-level relation). -/
def dstep (E : List (V × V)) (a b : V) : Prop := (a, b) ∈ E

/-- One undirected edge step (specification-level relation). -/
def ustep (E : List (V × V)) (a b : V) : Prop := (a, b) ∈ E ∨ (b, a) ∈ E

/-- A directed walk in the edge list. -/
def dwalk (E : List (V × V)) : V → V → Prop := Relation.ReflTransGen (dstep E)

/-- An undirected walk in the edge list. -/
def uwalk (E : List (V × V)) : V → V → Prop := Relation.ReflTransGen (ustep E)

/-- Traversal-order property of a directed edge list: each edge attaches one
fresh view to an already-seen view. -/
def okOrderB (seen : List V) : List (V × V) → Bool
  | [] => true
  | e :: rest =>
      (decide (e.1 ∈ seen) && !decide (e.2 ∈ seen)) && okOrderB (seen ++ [e.2]) rest

/-- The two lists contain the same vertices. -/
def sameSetB (l1 l2 : List V) : Bool :=
  l1.all (fun v => decide (v ∈ l2)) && l2.all (fun v => decide (v ∈ l1))

/-- A directed spanning tree over `views`, presented in traversal order: the
first edge introduces the root, every edge attaches one fresh view to an
already-seen view, and together the edges cover exactly `views`.  This is the
shape produced by `sample_random_view_tree` (a DFS edge order of a spanning
tree of the view graph). -/
def isSpanningListB (views : List V) (E : List (V × V)) : Bool :=
  match E with
  | [] => false
  | e :: _ => okOrderB [e.1] E && sameSetB views (e.1 :: E.map Prod.snd)

/-- Position of the first occurrence of `v` in a list (length if absent). -/
def posOf (v : V) : List V → ℕ
  | [] => 0
  | x :: xs => if v = x then 0 else posOf v xs + 1

/- ===================================================================
   Section 2: `concatenate_relative_poses` (calibration.py lines 199-308).
   The scale estimator chosen by `method` is an external collaborator
   (point_set_registration.py, modelled in Section 4); here it is a function
   parameter `scaleOf`, returning the estimated scale and its estimated
   standard deviation, exactly as the two branches of the Python `method`
   dispatch do.  The map `rel` plays the role of the `relative_poses`
   dictionary.
   =================================================================== -/

/-- The data the external pairwise estimator stores for one directed pair
(`relative_poses[pair]`): relative rotation `Rd`, relative translation `td`,
triangulated points (in the frame of the pair's first camera) and their
timestamps. -/
structure RelPose where
  Rd : Mat
  td : Pt
  triang : List Pt
  ts : List ℕ

/-- `utils.invert_Rt`: `Ri = R.T`, `ti = -Ri @ t`. -/
def invert_Rt (R : Mat) (t : Pt) : Mat × Pt :=
  (R.transpose, -(R.transpose.mulVec t))

/-- One entry of the `poses` dictionary of `concatenate_relative_poses`. -/
structure Pose where
  R : Mat
  t : Pt
  relative_scale : ℚ
  relative_scale_std : Option ℚ
deriving DecidableEq

/-- One entry of the `triang_points` dictionary (keyed by the pair). -/
structure TriEntry where
  pair : V × V
  pts : List Pt
  ts : List ℕ
deriving DecidableEq

/-- The loop state: both dictionaries in insertion order, plus the pairs for
which the low-scale warning was printed. -/
structure CState where
  poses : List (V × Pose)
  triang : List TriEntry
  warnings : List (V × V)
deriving DecidableEq

/-- Python-dict assignment on an association list: replace in place if the
key exists, else append. -/
def updateAssoc (l : List (V × Pose)) (k : V) (v : Pose) : List (V × Pose) :=
  if l.any (fun e => decide (e.1 = k)) then
    l.map (fun e => if e.1 = k then (k, v) else e)
  else l ++ [(k, v)]

/-- Python-dict lookup on an association list. -/
def lookupA (l : List (V × Pose)) (k : V) : Option Pose :=
  (l.find? (fun e => decide (e.1 = k))).map Prod.snd

/-- Dict assignment for the `triang_points` dictionary. -/
def updateTri (l : List TriEntry) (e : TriEntry) : List TriEntry :=
  if l.any (fun x => decide (x.pair = e.pair)) then
    l.map (fun x => if x.pair = e.pair then e else x)
  else l ++ [e]

/-- Dict lookup for the `triang_points` dictionary. -/
def lookupTri (l : List TriEntry) (k : V × V) : Option TriEntry :=
  l.find? (fun x => decide (x.pair = k))

/-- `find_adjacent_pair`: scan the `triang_points` keys in insertion order;
remember the last key containing `pair[0]` and keep scanning; stop at the
first key that contains `pair[1]` but not `pair[0]` (the `inverse` case). -/
def fapAux (p : V × V) : List TriEntry → Option (V × V) → Option (V × V) × Bool
  | [], acc => (acc, false)
  | e :: rest, acc =>
      if p.1 = e.pair.1 ∨ p.1 = e.pair.2 then fapAux p rest (some e.pair)
      else if p.2 = e.pair.1 ∨ p.2 = e.pair.2 then (some e.pair, true)
      else fapAux p rest acc

/-- `set(idx_adj).intersection(idx)`: the deduplicated common timestamps (the
set iteration order is modelled as first-list order; both selected point
lists below use the same order, preserving the 1:1 correspondence). -/
def commonIds (adjTs curTs : List ℕ) : List ℕ :=
  (adjTs.filter (fun i => decide (i ∈ curTs))).dedup

/-- `[pts[ts.index(i)] for i in ids]`. -/
def selPts (pts : List Pt) (ts : List ℕ) (ids : List ℕ) : List Pt :=
  ids.map (fun i => pts.getD (posOf i ts) (fun _ => 0))

/-- The effective relative pose of the current pair: inverted with
`invert_Rt` when the adjacency was found through the pair's second view. -/
def edgeRT (rel : V × V → RelPose) (p : V × V) (inv : Bool) : Mat × Pt :=
  if inv then invert_Rt (rel p).Rd (rel p).td else ((rel p).Rd, (rel p).td)

/-- The two corresponding common-point lists handed to the scale estimator:
the current pair's triangulated points (`p3d_com`) and the adjacent pair's
already-global points (`p3d_adj_com`), in that argument order. -/
def commonPts (rel : V × V → RelPose) (adjE : TriEntry) (p : V × V) :
    List Pt × List Pt :=
  (selPts (rel p).triang (rel p).ts (commonIds adjE.ts (rel p).ts),
   selPts adjE.pts adjE.ts (commonIds adjE.ts (rel p).ts))

/-- The scale estimate (and its std) for the current pair against the
adjacent pair. -/
def pairScale (scaleOf : List Pt → List Pt → ℚ × Option ℚ)
    (rel : V × V → RelPose) (adjE : TriEntry) (p : V × V) : ℚ × Option ℚ :=
  scaleOf (commonPts rel adjE p).1 (commonPts rel adjE p).2

/-- The new camera pose for the newly placed view:
`R2 = Rd @ R1`, `t2 = Rd @ t1 + relative_scale * td`. -/
def newPose (scaleOf : List Pt → List Pt → ℚ × Option ℚ)
    (rel : V × V → RelPose) (adjE : TriEntry) (p : V × V) (inv : Bool)
    (po : Pose) : Pose :=
  ⟨(edgeRT rel p inv).1 * po.R,
   (edgeRT rel p inv).1.mulVec po.t +
     (pairScale scaleOf rel adjE p).1 • (edgeRT rel p inv).2,
   (pairScale scaleOf rel adjE p).1,
   (pairScale scaleOf rel adjE p).2⟩

/-- The current pair's triangulated points transformed to the origin:
`p3d = R_inv @ (p3d.T * relative_scale) + t_inv` with `(R_inv, t_inv)` the
`invert_Rt` of `(R2, t2)` in the inverse case and of `(R1, t1)` otherwise. -/
def newTriPts (scaleOf : List Pt → List Pt → ℚ × Option ℚ)
    (rel : V × V → RelPose) (adjE : TriEntry) (p : V × V) (inv : Bool)
    (po : Pose) : List Pt :=
  (rel p).triang.map (fun x =>
    (if inv then invert_Rt (newPose scaleOf rel adjE p inv po).R
        (newPose scaleOf rel adjE p inv po).t
      else invert_Rt po.R po.t).1.mulVec ((pairScale scaleOf rel adjE p).1 • x) +
    (if inv then invert_Rt (newPose scaleOf rel adjE p inv po).R
        (newPose scaleOf rel adjE p inv po).t
      else invert_Rt po.R po.t).2)

/-- Result of attempting one `curr_pair`: no adjacent resolved pair found
(the pair is kept for the next pass), a missing dictionary key (a Python
`KeyError`, unreachable from the seed state), or the updated state. -/
inductive ResolveResult where
  | unmatched
  | keyErr
  | resolved (st : CState)
deriving DecidableEq

/-- The body of the `for curr_pair in pairs` loop for one pair: find an
adjacent resolved pair, pick the traversal direction, estimate the scale,
compose the new pose, transform the points, record both dictionary entries
and the low-scale warning if any. -/
def resolvePair (scaleOf : List Pt → List Pt → ℚ × Option ℚ)
    (rel : V × V → RelPose) (st : CState) (p : V × V) : ResolveResult :=
  match fapAux p st.triang none with
  | (none, _) => .unmatched
  | (some adj, inv) =>
      match lookupA st.poses (if inv then p.2 else p.1), lookupTri st.triang adj with
      | some po, some adjE =>
          .resolved
            ⟨updateAssoc st.poses (if inv then p.1 else p.2)
                (newPose scaleOf rel adjE p inv po),
             updateTri st.triang ⟨p, newTriPts scaleOf rel adjE p inv po, (rel p).ts⟩,
             if (pairScale scaleOf rel adjE p).1 < 1/10 then st.warnings ++ [p]
             else st.warnings⟩
      | _, _ => .keyErr

/-- Failure modes of `concatenate_relative_poses`. -/
inductive ConcatErr where
  | emptyTree
  | keyErr
  | stuck (pairs : List (V × V))
  | fuelExhausted
deriving DecidableEq

/-- One full pass over the work-list, accumulating `unmatched_pairs` with the
`if curr_pair not in unmatched_pairs` dedup test of the source. -/
def onePass (scaleOf : List Pt → List Pt → ℚ × Option ℚ)
    (rel : V × V → RelPose) (st : CState) (acc : List (V × V)) :
    List (V × V) → Except ConcatErr (CState × List (V × V))
  | [] => .ok (st, acc)
  | p :: rest =>
      match resolvePair scaleOf rel st p with
      | .unmatched =>
          onePass scaleOf rel st (if p ∈ acc then acc else acc ++ [p]) rest
      | .keyErr => .error .keyErr
      | .resolved st2 => onePass scaleOf rel st2 acc rest

/-- The `while len(pairs) > 0` loop: run a pass; raise the stuck error when
the pass made no progress (`len(pairs) == len(unmatched_pairs)`); otherwise
continue on the unmatched pairs.  The fuel bounds the number of passes;
claim C4 shows the standard fuel is never exhausted. -/
def concatLoop (scaleOf : List Pt → List Pt → ℚ × Option ℚ)
    (rel : V × V → RelPose) :
    ℕ → CState → List (V × V) → Except ConcatErr CState
  | 0, _, _ => .error .fuelExhausted
  | fuel + 1, st, pairs =>
      if pairs.isEmpty then .ok st
      else
        match onePass scaleOf rel st [] pairs with
        | .error e => .error e
        | .ok (st2, unmatched) =>
            if pairs.length = unmatched.length then .error (.stuck unmatched)
            else concatLoop scaleOf rel fuel st2 unmatched

/-- The root pose: identity rotation, zero translation, scale one. -/
def idPose : Pose := ⟨1, 0, 1, none⟩

/-- The seed state built before the loop: the first camera at the origin,
the second at the pair's relative pose, the pair's triangulated points as
the first `triang_points` entry (unrescaled). -/
def seedState (rel : V × V → RelPose) (p0 : V × V) : CState :=
  ⟨updateAssoc (updateAssoc [] p0.1 idPose) p0.2
      ⟨(rel p0).Rd, (rel p0).td, 1, none⟩,
   [⟨p0, (rel p0).triang, (rel p0).ts⟩], []⟩

/-- `calibration.concatenate_relative_poses` with the method-selected scale
estimator passed as `scaleOf`. -/
def concatenate_relative_poses (scaleOf : List Pt → List Pt → ℚ × Option ℚ)
    (rel : V × V → RelPose) : List (V × V) → Except ConcatErr CState
  | [] => .error .emptyTree
  | p0 :: rest => concatLoop scaleOf rel (rest.length + 1) (seedState rel p0) rest

/-- A constant scale estimator used in concrete runs. -/
def constScale : List Pt → List Pt → ℚ × Option ℚ := fun _ _ => (1, none)

/-- Concrete relative poses used by concrete runs: identity rotations with
edge-specific translations, one shared triangulated point per pair. -/
def c6rel : V × V → RelPose := fun p =>
  if p = (0, 1) then ⟨1, ![1, 0, 0], [![0, 0, 0]], [0]⟩
  else if p = (1, 2) then ⟨1, ![0, 1, 0], [![0, 0, 0]], [0]⟩
  else ⟨1, ![0, 0, 1], [![0, 0, 0]], [0]⟩

/-- The root view's recorded pose after a successful run on a nonempty tree
(`none` when the run failed or the tree was empty). -/
def runRootPose (scaleOf : List Pt → List Pt → ℚ × Option ℚ)
    (rel : V × V → RelPose) (tree : List (V × V)) : Option (Option Pose) :=
  match tree with
  | [] => none
  | p0 :: rest =>
      match concatenate_relative_poses scaleOf rel (p0 :: rest) with
      | .ok st => some (lookupA st.poses p0.1)
      | .error _ => none

/-- A scale estimator frozen at 0.01, used to exercise the low-scale path. -/
def lowScale : List Pt → List Pt → ℚ × Option ℚ := fun _ _ => (1/100, none)

/-- Concrete seed state for single-step runs. -/
def c2st : CState := seedState c6rel (0, 1)

/-- The pose the seed state stores for view 1. -/
def c2po : Pose := ⟨(c6rel (0, 1)).Rd, (c6rel (0, 1)).td, 1, none⟩

/-- The seed `triang_points` entry of `c2st`. -/
def c2adjE : TriEntry := ⟨(0, 1), (c6rel (0, 1)).triang, (c6rel (0, 1)).ts⟩

/- ===================================================================
   Section 3: `build_view_graph` (calibration.py lines 310-325) and
   `compute_relative_poses_robust` (lines 339-405).  The robust estimator's
   per-pair two-view geometry is the external `compute_relative_poses`; its
   output is the oracle map `rel`.  Fundamental-matrix recomputation and
   re-triangulation after averaging are external two-view geometry and are
   not part of the claims.
   =================================================================== -/

/-- All ordered pairs `(l[i], l[j])` with `i < j`
(`itertools.combinations(views, 2)` order). -/
def pairsOf : List V → List (V × V)
  | [] => []
  | x :: xs => xs.map (fun y => (x, y)) ++ pairsOf xs

/-- `len(set(t1).intersection(t2))`. -/
def interCard (t1 t2 : List ℕ) : ℕ :=
  ((t1.dedup).filter (fun i => decide (i ∈ t2))).length

/-- `calibration.build_view_graph`: an undirected weighted edge list over
`views`; a pair is joined iff it shares strictly more than 8 timestamps (the
minimum for the fundamental matrix), weighted by the shared count
(`n_points`). -/
def build_view_graph (views : List V) (lm : V → List ℕ) : List (V × V × ℕ) :=
  (pairsOf views).filterMap (fun ab =>
    if 8 < interCard (lm ab.1) (lm ab.2) then
      some (ab.1, ab.2, interCard (lm ab.1) (lm ab.2))
    else none)

/-- Edge test in the undirected weighted graph. -/
def hasEdgeB (G : List (V × V × ℕ)) (a b : V) : Bool :=
  G.any (fun e => (decide (e.1 = a) && decide (e.2.1 = b)) ||
                  (decide (e.1 = b) && decide (e.2.1 = a)))

/-- The alternate middle views `w` of the two-hop simple paths `v1-w-v2` in
the view graph (`nx.all_simple_paths(G, v1, v2, 2)` restricted to length-3
paths), enumerated in `views` order. -/
def twoHops (views : List V) (lm : V → List ℕ) (v1 v2 : V) : List V :=
  views.filter (fun w => (decide (w ≠ v1) && decide (w ≠ v2)) &&
    hasEdgeB (build_view_graph views lm) v1 w &&
    hasEdgeB (build_view_graph views lm) w v2)

/-- The pose estimate of `v2` obtained by chaining `v1 → w → v2`, i.e.
`concatenate_relative_poses` run on the 2-edge sub-tree, as the robust
estimator does; the `(1, 0)` fallback is unreachable for a genuine two-hop
path (`chainPose_eq`). -/
def chainPose (scaleOf : List Pt → List Pt → ℚ × Option ℚ)
    (rel : V × V → RelPose) (v1 w v2 : V) : Mat × Pt :=
  match concatenate_relative_poses scaleOf rel [(v1, w), (w, v2)] with
  | .ok st =>
      match lookupA st.poses v2 with
      | some po => (po.R, po.t)
      | none => (1, 0)
  | .error _ => (1, 0)

/-- Component-wise arithmetic mean of matrices (`np.mean(_, 0)`). -/
def matMean (l : List Mat) : Mat := ((l.length : ℚ)⁻¹) • l.sum

/-- Component-wise arithmetic mean of vectors (`np.mean(_, 0)`). -/
def vecMean (l : List Pt) : Pt := ((l.length : ℚ)⁻¹) • l.sum

/-- Output of the robust estimator for one designated pair: averaged
rotation and translation, the number of alternate paths used, and whether
the non-fatal "no other way to reach" notice was printed. -/
structure RobustOut where
  Rd : Mat
  td : Pt
  nPaths : ℕ
  notice : Bool

/-- `calibration.compute_relative_poses_robust` for one designated pair
`(v1, v2)`: the direct pairwise estimate plus one chained estimate per
alternate two-hop path (capped at `max_paths`), averaged component-wise. -/
def compute_relative_poses_robust (scaleOf : List Pt → List Pt → ℚ × Option ℚ)
    (rel : V × V → RelPose) (views : List V) (lm : V → List ℕ)
    (v1 v2 : V) (max_paths : ℕ) : RobustOut :=
  ⟨matMean ((rel (v1, v2)).Rd ::
      (((twoHops views lm v1 v2).take max_paths).map
        (fun w => chainPose scaleOf rel v1 w v2)).map Prod.fst),
   vecMean ((rel (v1, v2)).td ::
      (((twoHops views lm v1 v2).take max_paths).map
        (fun w => chainPose scaleOf rel v1 w v2)).map Prod.snd),
   ((twoHops views lm v1 v2).take max_paths).length,
   ((twoHops views lm v1 v2).take max_paths).isEmpty⟩

/-- Landmark timestamps for the concrete two-view rig used as witness data:
views 0 and 1 share ten timestamps, view 2 observes nothing. -/
def c9lm : V → List ℕ := fun v =>
  if v = 2 then [] else [0, 1, 2, 3, 4, 5, 6, 7, 8, 9]

/- ===================================================================
   Section 4: point_set_registration.py.
   `np.linalg.norm` (the Euclidean row norm) and `np.sqrt` are irrational
   over ℚ: the estimator takes the row norm as an oracle `rnorm` and the
   scalar square root as an oracle `sq`; theorems hypothesise exactly the
   properties the true functions satisfy (and their witnesses instantiate
   them with the rational ℓ¹ norm and exact square roots, which satisfy the
   same hypotheses).  `np.random.shuffle` is modelled by passing the
   shuffled index list `order` explicitly.
   `scipy.linalg.orthogonal_procrustes(A, B)` returns `R = U Vᵀ` and
   `s = Σ σᵢ` from the SVD of `M = Aᵀ B`; it is the oracle `op`,
   hypothesised to return an orthogonal matrix attaining the maximum of
   `tr(Rᵀ M)` with `s` that maximum — the property characterising its
   output. -/

/-- Dot product of two 3-vectors. -/
def dotQ (x y : Pt) : ℚ := ∑ i, x i * y i

/-- Sorted copy of a list of rationals. -/
def sortQ (l : List ℚ) : List ℚ := l.insertionSort (fun a b => a ≤ b)

/-- `np.median`: sort, take the middle element for odd length, the mean of
the two middle elements for even length; `none` (NaN) for the empty list. -/
def median (l : List ℚ) : Option ℚ :=
  if l.length = 0 then none
  else if l.length % 2 = 1 then some ((sortQ l).getD (l.length / 2) 0)
  else some (((sortQ l).getD (l.length / 2 - 1) 0 +
    (sortQ l).getD (l.length / 2) 0) / 2)

/-- Arithmetic mean of a list of rationals. -/
def meanQ (l : List ℚ) : ℚ := l.sum / l.length

/-- Population variance (the square of `np.std`). -/
def varQ (l : List ℚ) : ℚ := (l.map (fun x => (x - meanQ l) ^ 2)).sum / l.length

/-- `np.std` through the square-root oracle; `none` (NaN) on the empty list. -/
def stdQ (sq : ℚ → ℚ) (l : List ℚ) : Option ℚ :=
  if l.length = 0 then none else some (sq (varQ l))

/-- `l[i]` with a zero default. -/
def getPt (l : List Pt) (i : ℕ) : Pt := l.getD i (fun _ => 0)

/-- The cleaned pairwise distance ratios of `estimate_scale_point_sets`:
over all index pairs of the shuffled order, `d2/d1` kept when it is finite
(`d1 ≠ 0`; otherwise numpy yields NaN or inf, removed by the
`isnan`/`isinf` filter) and below the `max_est = 50000` cap. -/
def scalesClean (rnorm : Pt → ℚ) (src dst : List Pt) (order : List ℕ) :
    List ℚ :=
  (pairsOf order).filterMap (fun ij =>
    if rnorm (getPt src ij.1 - getPt src ij.2) = 0 then none
    else if rnorm (getPt dst ij.1 - getPt dst ij.2) /
        rnorm (getPt src ij.1 - getPt src ij.2) < 50000 then
      some (rnorm (getPt dst ij.1 - getPt dst ij.2) /
        rnorm (getPt src ij.1 - getPt src ij.2))
    else none)

/-- `point_set_registration.estimate_scale_point_sets` with the norm oracle
`rnorm`, the square-root oracle `sq` (for `np.std`) and the shuffled index
list `order`: the median of the cleaned pairwise distance ratios and their
standard deviation. -/
def estimate_scale_point_sets (rnorm : Pt → ℚ) (sq : ℚ → ℚ)
    (src dst : List Pt) (order : List ℕ) : Option ℚ × Option ℚ :=
  (median (scalesClean rnorm src dst order),
   stdQ sq (scalesClean rnorm src dst order))

/-- Mean of a point list (`np.mean(P, 0)`). -/
def meanPt (l : List Pt) : Pt := fun i => (l.map (fun p => p i)).sum / l.length

/-- Centered copy (`P -= m1`). -/
def centerPts (l : List Pt) : List Pt := l.map (fun p => p - meanPt l)

/-- Squared Frobenius norm of a point list seen as an N×3 matrix. -/
def frobSq (l : List Pt) : ℚ := (l.map (fun p => dotQ p p)).sum

/-- Division of every entry by a scalar (`P /= norm1`). -/
def scalePts (c : ℚ) (l : List Pt) : List Pt :=
  l.map (fun p => fun i => p i / c)

/-- `Qᵀ P` for two equal-length point lists seen as N×3 matrices. -/
def gram (qs ps : List Pt) : Mat := fun a b =>
  ((qs.zip ps).map (fun qp => qp.1 a * qp.2 b)).sum

/-- The matrix handed to `orthogonal_procrustes(Q, P)` inside
`procrustes_registration`: `Q̂ᵀ P̂` of the centered, Frobenius-normalised
point sets. -/
def procMatrix (sq : ℚ → ℚ) (src dst : List Pt) : Mat :=
  gram (scalePts (sq (frobSq (centerPts dst))) (centerPts dst))
       (scalePts (sq (frobSq (centerPts src))) (centerPts src))

/-- `apply_rigid_transform`: `(X*scale) @ R.T + t`, rowwise `R (s x) + t`. -/
def apply_rigid_transform (X : List Pt) (R : Mat) (t : Pt) (scale : ℚ) :
    List Pt := X.map (fun x => R.mulVec (scale • x) + t)

/-- `average_distance` through the norm oracle. -/
def average_distance (rnorm : Pt → ℚ) (X Y : List Pt) : ℚ :=
  ((X.zip Y).map (fun xy => rnorm (xy.1 - xy.2))).sum / X.length

/-- `point_set_registration.procrustes_registration` with the
`orthogonal_procrustes` oracle `op`, the square-root oracle `sq` and the
norm oracle `rnorm`; `none` models the `AssertionError`/`ValueError`
exits (mismatched shapes, or fewer than 2 unique points). -/
def procrustes_registration (op : Mat → Mat × ℚ) (sq : ℚ → ℚ)
    (rnorm : Pt → ℚ) (src dst : List Pt) : Option (ℚ × Mat × Pt × ℚ) :=
  if src.length ≠ dst.length then none
  else if sq (frobSq (centerPts src)) = 0 ∨ sq (frobSq (centerPts dst)) = 0
  then none
  else
    some ((op (procMatrix sq src dst)).2 * sq (frobSq (centerPts dst)) /
        sq (frobSq (centerPts src)),
      (op (procMatrix sq src dst)).1,
      meanPt dst -
        ((op (procMatrix sq src dst)).2 * sq (frobSq (centerPts dst)) /
          sq (frobSq (centerPts src))) •
          (op (procMatrix sq src dst)).1.mulVec (meanPt src),
      average_distance rnorm
        (apply_rigid_transform src (op (procMatrix sq src dst)).1
          (meanPt dst -
            ((op (procMatrix sq src dst)).2 * sq (frobSq (centerPts dst)) /
              sq (frobSq (centerPts src))) •
              (op (procMatrix sq src dst)).1.mulVec (meanPt src))
          ((op (procMatrix sq src dst)).2 * sq (frobSq (centerPts dst)) /
            sq (frobSq (centerPts src)))) dst)

/-- The quadratic form of a 3×3 matrix. -/
def quadForm (M : Mat) (x : Pt) : ℚ := ∑ a, ∑ b, x a * M a b * x b

/-- The ℓ¹ norm: a rational-valued instance of the norm-oracle
hypotheses. -/
def l1norm (v : Pt) : ℚ := |v 0| + |v 1| + |v 2|

/-- The reflection `diag(1,-1,-1)` used to exhibit a non-identity optimal
orthogonal alignment for rank-deficient (collinear) point sets. -/
def Rrefl : Mat := !![1, 0, 0; 0, -1, 0; 0, 0, -1]

/-- Exact square roots of the values arising from the collinear example. -/
def c7sq : ℚ → ℚ := fun x => if x = 4 then 2 else if x = 36 then 6 else 0

/-- A `orthogonal_procrustes` oracle answering the reflection. -/
def c7op : Mat → Mat × ℚ := fun _ => (Rrefl, 1)

/-- Four collinear points (two distinct values). -/
def c7P : List Pt := [![1, 0, 0], ![1, 0, 0], ![-1, 0, 0], ![-1, 0, 0]]

/-- The `procMatrix` of the collinear example: `diag(1,0,0)`. -/
def c7M : Mat := !![1, 0, 0; 0, 0, 0; 0, 0, 0]

/-- Exact square roots of the values arising from the full-rank witness. -/
def witSq : ℚ → ℚ := fun x => if x = 36 then 6 else if x = 144 then 12 else 0

/-- An `orthogonal_procrustes` oracle answering the identity. -/
def witOp : Mat → Mat × ℚ := fun _ => (1, 1)

/-- Six centered points spanning 3-space with perfect-square Frobenius
norm 36. -/
def witSrc : List Pt :=
  [![1, 0, 0], ![-1, 0, 0], ![0, 1, 0], ![0, -1, 0], ![0, 0, 4], ![0, 0, -4]]

/-- The `procMatrix` of the witness: `diag(1/18, 1/18, 8/9)`. -/
def witM : Mat := !![1/18, 0, 0; 0, 1/18, 0; 0, 0, 8/9]

/- ===================================================================
   Theorems for Section 1.
   =================================================================== -/

theorem mem_succsOf {E : List (V × V)} {x w : V} : w ∈ succsOf E x ↔ (x, w) ∈ E := by
  constructor
  · intro h
    rcases List.mem_map.1 h with ⟨e, he, hw⟩
    rcases List.mem_filter.1 he with ⟨heE, hx⟩
    have hx2 : e.1 = x := of_decide_eq_true hx
    have : e = (x, w) := by
      cases e; simp at hx2 hw; simp [hx2, hw]
    rwa [this] at heE
  · intro h
    refine List.mem_map.2 ⟨(x, w), List.mem_filter.2 ⟨h, ?_⟩, rfl⟩
    exact decide_eq_true rfl

theorem mem_nodesOf {E : List (V × V)} {x : V} :
    x ∈ nodesOf E ↔ (∃ e ∈ E, e.1 = x) ∨ (∃ e ∈ E, e.2 = x) := by
  simp [nodesOf, List.mem_dedup, List.mem_append, List.mem_map]

theorem reachStep_subset (E : List (V × V)) (s : Finset V) : s ⊆ reachStep E s :=
  Finset.subset_union_left

theorem reachN_succ (E : List (V × V)) (n : ℕ) (v : V) :
    reachN E (n + 1) v = reachStep E (reachN E n v) := by
  unfold reachN
  rw [Function.iterate_succ_apply']

theorem reachN_succ_superset (E : List (V × V)) (n : ℕ) (v : V) :
    reachN E n v ⊆ reachN E (n + 1) v := by
  rw [reachN_succ]; exact reachStep_subset E _

theorem reachN_mono (E : List (V × V)) (v : V) {m n : ℕ} (h : m ≤ n) :
    reachN E m v ⊆ reachN E n v := by
  induction h with
  | refl => exact fun x hx => hx
  | step _ ih => exact fun x hx => reachN_succ_superset E _ v (ih hx)

theorem reachN_sound (E : List (V × V)) :
    ∀ (n : ℕ) (u w : V), w ∈ reachN E n u → dwalk E u w := by
  intro n
  induction n with
  | zero =>
      intro u w hw
      simp [reachN] at hw
      rw [hw]
      exact Relation.ReflTransGen.refl
  | succ n ih =>
      intro u w hw
      rw [reachN_succ] at hw
      rcases Finset.mem_union.1 hw with h | h
      · exact ih u w h
      · rcases Finset.mem_biUnion.1 h with ⟨x, hx, hw2⟩
        exact Relation.ReflTransGen.tail (ih u x hx)
          (mem_succsOf.1 (List.mem_toFinset.1 hw2))

theorem reachN_subset_univ (E : List (V × V)) (v : V) :
    ∀ n : ℕ, reachN E n v ⊆ insert v (nodesOf E).toFinset := by
  intro n
  induction n with
  | zero => simp [reachN]
  | succ n ih =>
      rw [reachN_succ]
      intro x hx
      rcases Finset.mem_union.1 hx with h | h
      · exact ih h
      · rcases Finset.mem_biUnion.1 h with ⟨y, _, hx2⟩
        have hyx : (y, x) ∈ E := mem_succsOf.1 (List.mem_toFinset.1 hx2)
        exact Finset.mem_insert.2 (Or.inr (List.mem_toFinset.2
          (mem_nodesOf.2 (Or.inr ⟨(y, x), hyx, rfl⟩))))

theorem reachN_stab (E : List (V × V)) (v : V) {n : ℕ}
    (h : reachN E (n + 1) v = reachN E n v) :
    ∀ m, n ≤ m → reachN E m v = reachN E n v := by
  intro m hm
  induction hm with
  | refl => rfl
  | step _ ih => rw [reachN_succ, ih, ← reachN_succ, h]

theorem reachN_growth (E : List (V × V)) (v : V) :
    ∀ n : ℕ, (∀ k < n, reachN E (k + 1) v ≠ reachN E k v) →
      n + 1 ≤ (reachN E n v).card := by
  intro n
  induction n with
  | zero => intro _; simp [reachN]
  | succ n ih =>
      intro h
      have h1 : n + 1 ≤ (reachN E n v).card :=
        ih (fun k hk => h k (Nat.lt_succ_of_lt hk))
      have h2 : reachN E n v ⊂ reachN E (n + 1) v :=
        Finset.ssubset_iff_subset_ne.2
          ⟨reachN_succ_superset E n v, fun he => h n (Nat.lt_succ_self n) he.symm⟩
      exact Nat.succ_le_of_lt (lt_of_le_of_lt h1 (Finset.card_lt_card h2))

theorem exists_stab (E : List (V × V)) (v : V) :
    ∃ k < searchFuel E, reachN E (k + 1) v = reachN E k v := by
  by_contra hc
  push_neg at hc
  have h := reachN_growth E v (searchFuel E) (fun k hk => hc k hk)
  have h2 : (reachN E (searchFuel E) v).card ≤ searchFuel E := by
    calc (reachN E (searchFuel E) v).card
        ≤ (insert v (nodesOf E).toFinset).card :=
          Finset.card_le_card (reachN_subset_univ E v _)
      _ ≤ (nodesOf E).toFinset.card + 1 := Finset.card_insert_le _ _
      _ ≤ (nodesOf E).length + 1 := by
          have := (nodesOf E).toFinset_card_le
          omega
      _ = searchFuel E := rfl
  omega

theorem reachN_subset_reachF (E : List (V × V)) (v : V) :
    ∀ m : ℕ, reachN E m v ⊆ reachF E v := by
  obtain ⟨k, hk, hstab⟩ := exists_stab E v
  intro m
  rcases le_or_lt m (searchFuel E) with h | h
  · exact reachN_mono E v h
  · have h1 : reachN E m v = reachN E k v :=
      reachN_stab E v hstab m (le_of_lt (lt_trans hk h))
    have h2 : reachN E (searchFuel E) v = reachN E k v :=
      reachN_stab E v hstab _ (le_of_lt hk)
    show reachN E m v ⊆ reachN E (searchFuel E) v
    rw [h1, h2]

theorem dwalk_mem_reachF (E : List (V × V)) {u w : V} (h : dwalk E u w) :
    w ∈ reachF E u := by
  have hex : ∃ n, w ∈ reachN E n u := by
    induction h with
    | refl => exact ⟨0, by simp [reachN]⟩
    | tail _ h2 ih =>
        obtain ⟨n, hn⟩ := ih
        refine ⟨n + 1, ?_⟩
        rw [reachN_succ]
        exact Finset.mem_union.2 (Or.inr (Finset.mem_biUnion.2
          ⟨_, hn, List.mem_toFinset.2 (mem_succsOf.2 h2)⟩))
  obtain ⟨n, hn⟩ := hex
  exact reachN_subset_reachF E u n hn

theorem mem_symE {E : List (V × V)} {a b : V} :
    (a, b) ∈ symE E ↔ (a, b) ∈ E ∨ (b, a) ∈ E := by
  constructor
  · intro h
    rcases List.mem_append.1 h with h | h
    · exact Or.inl h
    · rcases List.mem_map.1 h with ⟨e, he, hab⟩
      refine Or.inr ?_
      have h1 : e.2 = a := congrArg Prod.fst hab
      have h2 : e.1 = b := congrArg Prod.snd hab
      have : e = (b, a) := by cases e; simp at h1 h2; simp [h1, h2]
      rwa [this] at he
  · intro h
    rcases h with h | h
    · exact List.mem_append.2 (Or.inl h)
    · exact List.mem_append.2 (Or.inr (List.mem_map.2 ⟨(b, a), h, rfl⟩))

theorem dwalk_symE_iff_uwalk (E : List (V × V)) {a b : V} :
    dwalk (symE E) a b ↔ uwalk E a b := by
  constructor
  · exact Relation.ReflTransGen.mono (fun x y hxy => mem_symE.1 hxy)
  · exact Relation.ReflTransGen.mono (fun x y hxy => mem_symE.2 hxy)

theorem uwalk_symm (E : List (V × V)) {a b : V} (h : uwalk E a b) : uwalk E b a :=
  Relation.ReflTransGen.symmetric (fun _ _ hxy => Or.symm hxy) h

theorem posOf_append_left {v : V} {l1 : List V} (l2 : List V) (h : v ∈ l1) :
    posOf v (l1 ++ l2) = posOf v l1 := by
  induction l1 with
  | nil => cases h
  | cons x xs ih =>
      by_cases hx : v = x
      · simp [posOf, hx]
      · have hmem : v ∈ xs := by
          rcases List.mem_cons.1 h with h1 | h1
          · exact absurd h1 hx
          · exact h1
        rw [List.cons_append]
        show (if v = x then 0 else posOf v (xs ++ l2) + 1) =
          (if v = x then 0 else posOf v xs + 1)
        rw [if_neg hx, if_neg hx, ih hmem]

theorem posOf_lt_length {v : V} {l : List V} (h : v ∈ l) : posOf v l < l.length := by
  induction l with
  | nil => cases h
  | cons x xs ih =>
      by_cases hx : v = x
      · simp [posOf, hx]
      · have hmem : v ∈ xs := by
          rcases List.mem_cons.1 h with h1 | h1
          · exact absurd h1 hx
          · exact h1
        simp only [posOf, if_neg hx, List.length_cons]
        exact Nat.succ_lt_succ (ih hmem)

theorem posOf_append_right {v : V} {l1 : List V} (l2 : List V) (h : v ∉ l1) :
    posOf v (l1 ++ l2) = l1.length + posOf v l2 := by
  induction l1 with
  | nil => simp [posOf]
  | cons x xs ih =>
      have hx : v ≠ x := fun he => h (by rw [he]; exact List.mem_cons_self x xs)
      have hxs : v ∉ xs := fun he => h (List.mem_cons_of_mem x he)
      simp [posOf, hx, ih hxs]
      omega

theorem okOrderB_step {seen : List V} {e : V × V} {rest : List (V × V)}
    (h : okOrderB seen (e :: rest) = true) :
    e.1 ∈ seen ∧ e.2 ∉ seen ∧ okOrderB (seen ++ [e.2]) rest = true := by
  simp [okOrderB] at h
  exact ⟨h.1.1, h.1.2, h.2⟩

theorem okOrderB_rank :
    ∀ (rest : List (V × V)) (seen : List V), okOrderB seen rest = true →
      ∀ e ∈ rest,
        posOf e.1 (seen ++ rest.map Prod.snd) < posOf e.2 (seen ++ rest.map Prod.snd) := by
  intro rest
  induction rest with
  | nil => intro seen _ e he; cases he
  | cons a rest ih =>
      intro seen h e he
      obtain ⟨h1, h2, h3⟩ := okOrderB_step h
      rcases List.mem_cons.1 he with he | he
      · subst he
        have hmap : (e :: rest).map Prod.snd = e.2 :: rest.map Prod.snd := rfl
        rw [hmap]
        rw [posOf_append_left _ h1, posOf_append_right _ h2]
        have := posOf_lt_length h1
        simp [posOf]
        omega
      · have := ih (seen ++ [a.2]) h3 e he
        rw [List.append_assoc] at this
        simpa using this

theorem dwalk_rank_le (E : List (V × V)) (L : List V)
    (hE : ∀ e ∈ E, posOf e.1 L < posOf e.2 L) {u w : V} (h : dwalk E u w) :
    posOf u L ≤ posOf w L := by
  induction h with
  | refl => exact le_refl _
  | tail _ h2 ih => exact le_of_lt (lt_of_le_of_lt ih (hE _ h2))

theorem okOrderB_reach (E : List (V × V)) :
    ∀ (rest : List (V × V)) (seen : List V) (r : V),
      okOrderB seen rest = true → (∀ e ∈ rest, e ∈ E) →
      (∀ v ∈ seen, uwalk E r v) →
      ∀ v ∈ seen ++ rest.map Prod.snd, uwalk E r v := by
  intro rest
  induction rest with
  | nil => intro seen r _ _ hseen v hv; simp at hv; exact hseen v hv
  | cons a rest ih =>
      intro seen r h hsub hseen v hv
      obtain ⟨h1, _, h3⟩ := okOrderB_step h
      have hseen2 : ∀ x ∈ seen ++ [a.2], uwalk E r x := by
        intro x hx
        rcases List.mem_append.1 hx with hx | hx
        · exact hseen x hx
        · have hx2 : x = a.2 := by simpa using hx
          subst hx2
          exact Relation.ReflTransGen.tail (hseen a.1 h1)
            (Or.inl (by have := hsub a (List.mem_cons_self a rest); simpa using this))
      have := ih (seen ++ [a.2]) r h3 (fun e he => hsub e (List.mem_cons_of_mem a he)) hseen2 v
      rw [List.append_assoc] at this
      exact this (by simpa using hv)

theorem okOrderB_fst_mem :
    ∀ (rest : List (V × V)) (seen : List V), okOrderB seen rest = true →
      ∀ e ∈ rest, e.1 ∈ seen ++ rest.map Prod.snd := by
  intro rest
  induction rest with
  | nil => intro seen _ e he; cases he
  | cons a rest ih =>
      intro seen h e he
      obtain ⟨h1, _, h3⟩ := okOrderB_step h
      rcases List.mem_cons.1 he with he | he
      · subst he
        exact List.mem_append.2 (Or.inl h1)
      · have := ih (seen ++ [a.2]) h3 e he
        rw [List.append_assoc] at this
        simpa using this

/-- Claim C1 (amended): the validator `verify_view_tree` returns invalid for
any edge list containing a directed cycle, returns invalid when two vertices
of the edge list are not joined by an undirected walk (more than one
connected component), and returns valid for a correct spanning tree given in
traversal order over any view set.  (The original claim also demanded
invalidity when the edge list spans fewer views than the rig; the validator
receives only the edge list and cannot perform that check, see
`claim_C1_counterexample`.) -/
theorem claim_C1_validator (E : List (V × V)) (views : List V) :
    ((∃ a b, (a, b) ∈ E ∧ dwalk E b a) → verify_view_tree E = false) ∧
    ((∃ u w, u ∈ nodesOf E ∧ w ∈ nodesOf E ∧ ¬ uwalk E u w) →
      verify_view_tree E = false) ∧
    (isSpanningListB views E = true → verify_view_tree E = true) := by
  refine ⟨?_, ?_, ?_⟩
  · rintro ⟨a, b, hab, hwalk⟩
    have hcyc : hasDirectedCycleB E = true := by
      refine List.any_eq_true.2 ⟨a, ?_, List.any_eq_true.2
        ⟨b, mem_succsOf.2 hab, decide_eq_true (dwalk_mem_reachF E hwalk)⟩⟩
      exact mem_nodesOf.2 (Or.inl ⟨(a, b), hab, rfl⟩)
    simp [verify_view_tree, hcyc]
  · rintro ⟨u, w, hu, hw, hnw⟩
    cases hv : verify_view_tree E with
    | false => rfl
    | true =>
        exfalso
        have hconn : connectedOneB E = true := by
          have := hv
          simp [verify_view_tree] at this
          exact this.2
        rcases hN : nodesOf E with _ | ⟨v0, rest0⟩
        · rw [hN] at hu; cases hu
        · have hall : ∀ x ∈ nodesOf E, x ∈ reachF (symE E) v0 := by
            intro x hx
            have hthis := hconn
            unfold connectedOneB at hthis
            rw [hN] at hthis
            simp only [] at hthis
            have h2 := List.all_eq_true.1 hthis x (by rwa [hN] at hx)
            exact of_decide_eq_true h2
          have hwu : uwalk E v0 u :=
            (dwalk_symE_iff_uwalk E).1 (reachN_sound (symE E) _ v0 u (hall u hu))
          have hww : uwalk E v0 w :=
            (dwalk_symE_iff_uwalk E).1 (reachN_sound (symE E) _ v0 w (hall w hw))
          exact hnw (Relation.ReflTransGen.trans (uwalk_symm E hwu) hww)
  · intro hsp
    have hex : ∃ e0 rest, E = e0 :: rest ∧ okOrderB [e0.1] E = true := by
      cases E with
      | nil => simp [isSpanningListB] at hsp
      | cons e0 rest =>
          refine ⟨e0, rest, rfl, ?_⟩
          simp only [isSpanningListB, Bool.and_eq_true] at hsp
          exact hsp.1
    obtain ⟨e0, rest, hE, hok2⟩ := hex
    have hrank : ∀ e ∈ E, posOf e.1 (e0.1 :: E.map Prod.snd) <
        posOf e.2 (e0.1 :: E.map Prod.snd) := by
      intro e he
      have := okOrderB_rank E [e0.1] hok2 e he
      simpa using this
    have hnocyc : hasDirectedCycleB E = false := by
      cases hc : hasDirectedCycleB E with
      | false => rfl
      | true =>
          exfalso
          rcases List.any_eq_true.1 hc with ⟨v, _, hv2⟩
          rcases List.any_eq_true.1 hv2 with ⟨s, hs, hs2⟩
          have hvs : (v, s) ∈ E := mem_succsOf.1 hs
          have hwalk : dwalk E s v :=
            reachN_sound E _ s v (of_decide_eq_true hs2)
          have h1 := hrank (v, s) hvs
          have h2 := dwalk_rank_le E (e0.1 :: E.map Prod.snd) hrank hwalk
          simp at h1 h2
          omega
    have hreach : ∀ v ∈ [e0.1] ++ E.map Prod.snd, uwalk E e0.1 v := by
      refine okOrderB_reach E E [e0.1] e0.1 hok2 (fun e he => he) ?_
      intro v hv
      have hveq : v = e0.1 := by simpa using hv
      rw [hveq]
      exact Relation.ReflTransGen.refl
    have hnodes : ∀ v ∈ nodesOf E, uwalk E e0.1 v := by
      intro v hv
      rcases mem_nodesOf.1 hv with ⟨e, he, hve⟩ | ⟨e, he, hve⟩
      · have := okOrderB_fst_mem E [e0.1] hok2 e he
        rw [hve] at this
        exact hreach v this
      · refine hreach v (List.mem_append.2 (Or.inr ?_))
        exact List.mem_map.2 ⟨e, he, hve⟩
    have hconn : connectedOneB E = true := by
      unfold connectedOneB
      rcases hN : nodesOf E with _ | ⟨v0, rest0⟩
      · exfalso
        have : e0.1 ∈ nodesOf E := by
          rw [hE]
          exact mem_nodesOf.2 (Or.inl ⟨e0, List.mem_cons_self e0 rest, rfl⟩)
        rw [hN] at this; cases this
      · refine List.all_eq_true.2 ?_
        intro w hw
        refine decide_eq_true ?_
        have hv0 : v0 ∈ nodesOf E := by rw [hN]; exact List.mem_cons_self v0 rest0
        have h1 : uwalk E e0.1 v0 := hnodes v0 hv0
        have h2 : uwalk E e0.1 w := hnodes w (by rwa [hN])
        have h3 : uwalk E v0 w :=
          Relation.ReflTransGen.trans (uwalk_symm E h1) h2
        exact dwalk_mem_reachF (symE E) ((dwalk_symE_iff_uwalk E).2 h3)
    simp [verify_view_tree, hnocyc, hconn]

/-- Claim C1 witness: the validator accepts the concrete spanning tree
`[(0,1),(1,2)]` over the views `[0,1,2]`. -/
theorem claim_C1_witness : verify_view_tree [(0, 1), (1, 2)] = true :=
  (claim_C1_validator [(0, 1), (1, 2)] [0, 1, 2]).2.2 (by decide)

/-- Claim C1 counterexample: the edge list `[(0,1)]` spans only views 0 and 1
of a rig with views `{0,1,2}`, yet `verify_view_tree` returns valid — the
validator never sees the rig's view set, so "spans fewer than all views of
the rig implies invalid" is false of the code. -/
theorem claim_C1_counterexample :
    (2 : V) ∉ nodesOf [(0, 1)] ∧ verify_view_tree [(0, 1)] = true := by
  constructor
  · decide
  · decide

/- ===================================================================
   Theorems for Section 2.
   =================================================================== -/

theorem find_none_of_any_false (l : List (V × Pose)) (k : V)
    (h : l.any (fun e => decide (e.1 = k)) = false) :
    l.find? (fun e => decide (e.1 = k)) = none := by
  rw [List.find?_eq_none]
  intro e he hek
  have h2 : l.any (fun e => decide (e.1 = k)) = true := List.any_eq_true.2 ⟨e, he, hek⟩
  rw [h] at h2
  cases h2

theorem lookupA_update_self (l : List (V × Pose)) (k : V) (v : Pose) :
    lookupA (updateAssoc l k v) k = some v := by
  unfold updateAssoc lookupA
  by_cases h : l.any (fun e => decide (e.1 = k)) = true
  · rw [if_pos h]
    induction l with
    | nil => cases h
    | cons e l ih =>
        by_cases he : e.1 = k
        · rw [List.map_cons, if_pos he]
          rw [List.find?_cons_of_pos _ (by simp)]
          rfl
        · have h2 : l.any (fun e => decide (e.1 = k)) = true := by
            simpa [List.any_cons, he] using h
          rw [List.map_cons, if_neg he]
          rw [List.find?_cons_of_neg _ (by simp [he])]
          exact ih h2
  · rw [if_neg h]
    have h2 : l.any (fun e => decide (e.1 = k)) = false := by
      cases hh : l.any (fun e => decide (e.1 = k))
      · rfl
      · exact absurd hh h
    rw [List.find?_append, find_none_of_any_false l k h2]
    simp [lookupA, List.find?]

theorem lookupA_update_other (l : List (V × Pose)) (k k2 : V) (v : Pose)
    (hne : k2 ≠ k) : lookupA (updateAssoc l k v) k2 = lookupA l k2 := by
  unfold updateAssoc lookupA
  by_cases h : l.any (fun e => decide (e.1 = k)) = true
  · rw [if_pos h]
    clear h
    induction l with
    | nil => rfl
    | cons e l ih =>
        by_cases he : e.1 = k
        · rw [List.map_cons, if_pos he]
          rw [List.find?_cons_of_neg _
            (by simp only [decide_eq_true_eq]; exact fun hc => hne hc.symm)]
          rw [List.find?_cons_of_neg _
            (by simp only [decide_eq_true_eq]; rw [he]; exact fun hc => hne hc.symm)]
          exact ih
        · rw [List.map_cons, if_neg he]
          by_cases he2 : e.1 = k2
          · rw [List.find?_cons_of_pos _ (by simp [he2]),
              List.find?_cons_of_pos _ (by simp [he2])]
          · rw [List.find?_cons_of_neg _ (by simp [he2]),
              List.find?_cons_of_neg _ (by simp [he2])]
            exact ih
  · rw [if_neg h]
    rw [List.find?_append]
    have : ([(k, v)].find? (fun e => decide (e.1 = k2))) = none := by
      simp only [List.find?]
      rw [decide_eq_false (fun hc => hne hc.symm)]
    rw [this]
    cases hf : l.find? (fun e => decide (e.1 = k2)) <;> rfl

theorem lookupTri_update_self (l : List TriEntry) (e : TriEntry) :
    lookupTri (updateTri l e) e.pair = some e := by
  unfold updateTri lookupTri
  by_cases h : l.any (fun x => decide (x.pair = e.pair)) = true
  · rw [if_pos h]
    induction l with
    | nil => cases h
    | cons x l ih =>
        by_cases hx : x.pair = e.pair
        · rw [List.map_cons, if_pos hx]
          rw [List.find?_cons_of_pos _ (by simp)]
        · have h2 : l.any (fun x => decide (x.pair = e.pair)) = true := by
            simpa [List.any_cons, hx] using h
          rw [List.map_cons, if_neg hx]
          rw [List.find?_cons_of_neg _ (by simp [hx])]
          exact ih h2
  · rw [if_neg h]
    rw [List.find?_append]
    have h2 : l.find? (fun x => decide (x.pair = e.pair)) = none := by
      rw [List.find?_eq_none]
      intro x hx hxe
      have h3 : l.any (fun x => decide (x.pair = e.pair)) = true :=
        List.any_eq_true.2 ⟨x, hx, hxe⟩
      rw [eq_false_of_ne_true h] at h3
      cases h3
    rw [h2]
    simp [List.find?]

theorem updateTri_append (l : List TriEntry) (e : TriEntry)
    (h : l.any (fun x => decide (x.pair = e.pair)) = false) :
    updateTri l e = l ++ [e] := by
  unfold updateTri
  rw [if_neg (by rw [h]; exact Bool.false_ne_true)]

theorem resolvePair_eq (scaleOf : List Pt → List Pt → ℚ × Option ℚ)
    (rel : V × V → RelPose) (st : CState) (p adj : V × V) (inv : Bool)
    (po : Pose) (adjE : TriEntry)
    (hadj : fapAux p st.triang none = (some adj, inv))
    (hpo : lookupA st.poses (if inv then p.2 else p.1) = some po)
    (hadjE : lookupTri st.triang adj = some adjE) :
    resolvePair scaleOf rel st p = .resolved
      ⟨updateAssoc st.poses (if inv then p.1 else p.2)
          (newPose scaleOf rel adjE p inv po),
       updateTri st.triang ⟨p, newTriPts scaleOf rel adjE p inv po, (rel p).ts⟩,
       if (pairScale scaleOf rel adjE p).1 < 1/10 then st.warnings ++ [p]
       else st.warnings⟩ := by
  unfold resolvePair
  rw [hadj]
  simp only [hpo, hadjE]

/-- Claim C2: for every non-seed edge resolved by the concatenation loop,
with anchor pose `(R1, t1) = (po.R, po.t)` (the already-placed view looked
up in `poses`), effective edge pose `(Rd, td) = edgeRT rel p inv` (inverted
first exactly when the adjacency was found through the edge's second
endpoint, `inv = true`), and estimated relative scale
`s = (pairScale scaleOf rel adjE p).1`, the newly placed view's recorded
global pose is exactly `R2 = Rd * R1` and `t2 = Rd *ᵥ t1 + s • td`. -/
theorem claim_C2_compose (scaleOf : List Pt → List Pt → ℚ × Option ℚ)
    (rel : V × V → RelPose) (st : CState) (p adj : V × V) (inv : Bool)
    (po : Pose) (adjE : TriEntry) (st2 : CState)
    (hadj : fapAux p st.triang none = (some adj, inv))
    (hpo : lookupA st.poses (if inv then p.2 else p.1) = some po)
    (hadjE : lookupTri st.triang adj = some adjE)
    (hres : resolvePair scaleOf rel st p = .resolved st2) :
    lookupA st2.poses (if inv then p.1 else p.2) = some
      ⟨(edgeRT rel p inv).1 * po.R,
       (edgeRT rel p inv).1.mulVec po.t +
         (pairScale scaleOf rel adjE p).1 • (edgeRT rel p inv).2,
       (pairScale scaleOf rel adjE p).1,
       (pairScale scaleOf rel adjE p).2⟩ := by
  rw [resolvePair_eq scaleOf rel st p adj inv po adjE hadj hpo hadjE] at hres
  cases hres
  exact lookupA_update_self _ _ _

/-- Claim C2 witness: resolving the pair `(1,2)` against the seed state of
the tree `[(0,1),(1,2)]` records for view 2 exactly the composed pose. -/
theorem claim_C2_witness :
    lookupA ((⟨updateAssoc c2st.poses 2 (newPose constScale c6rel c2adjE (1, 2) false c2po),
        updateTri c2st.triang
          ⟨(1, 2), newTriPts constScale c6rel c2adjE (1, 2) false c2po, (c6rel (1, 2)).ts⟩,
        if (pairScale constScale c6rel c2adjE (1, 2)).1 < 1/10 then c2st.warnings ++ [(1, 2)]
        else c2st.warnings⟩ : CState)).poses 2 = some
      ⟨(edgeRT c6rel (1, 2) false).1 * c2po.R,
       (edgeRT c6rel (1, 2) false).1.mulVec c2po.t +
         (pairScale constScale c6rel c2adjE (1, 2)).1 • (edgeRT c6rel (1, 2) false).2,
       (pairScale constScale c6rel c2adjE (1, 2)).1,
       (pairScale constScale c6rel c2adjE (1, 2)).2⟩ := by
  refine claim_C2_compose constScale c6rel c2st (1, 2) (0, 1) false c2po c2adjE _ ?_ ?_ ?_ ?_
  · norm_num [fapAux, c2st, seedState]
  · show lookupA c2st.poses 1 = some c2po
    norm_num [c2st, seedState, lookupA, updateAssoc, c2po, List.find?]
  · norm_num [lookupTri, c2st, seedState, c2adjE, List.find?]
  · exact resolvePair_eq constScale c6rel c2st (1, 2) (0, 1) false c2po c2adjE
      (by norm_num [fapAux, c2st, seedState])
      (by show lookupA c2st.poses 1 = some c2po
          norm_num [c2st, seedState, lookupA, updateAssoc, c2po, List.find?])
      (by norm_num [lookupTri, c2st, seedState, c2adjE, List.find?])

/-- Claim C3 (amended): every resolved edge's triangulated points are scaled
by the estimated scale `s` and mapped through `invert_Rt` of the global pose
of the pair's first endpoint `p.1` (the camera frame the points were
triangulated in): that is the anchor pose `(R1, t1)` in the direct case but
the newly placed view's pose `(R2, t2)` in the inverted-adjacency case.  The
original claim — the anchor's pose in both cases — fails in the inverted
case, see `claim_C3_counterexample`. -/
theorem claim_C3_points (scaleOf : List Pt → List Pt → ℚ × Option ℚ)
    (rel : V × V → RelPose) (st : CState) (p adj : V × V) (inv : Bool)
    (po : Pose) (adjE : TriEntry) (st2 : CState)
    (hadj : fapAux p st.triang none = (some adj, inv))
    (hpo : lookupA st.poses (if inv then p.2 else p.1) = some po)
    (hadjE : lookupTri st.triang adj = some adjE)
    (hres : resolvePair scaleOf rel st p = .resolved st2) :
    lookupTri st2.triang p = some
      ⟨p, (rel p).triang.map (fun x =>
          (if inv then
              invert_Rt ((edgeRT rel p inv).1 * po.R)
                ((edgeRT rel p inv).1.mulVec po.t +
                  (pairScale scaleOf rel adjE p).1 • (edgeRT rel p inv).2)
            else invert_Rt po.R po.t).1.mulVec
            ((pairScale scaleOf rel adjE p).1 • x) +
          (if inv then
              invert_Rt ((edgeRT rel p inv).1 * po.R)
                ((edgeRT rel p inv).1.mulVec po.t +
                  (pairScale scaleOf rel adjE p).1 • (edgeRT rel p inv).2)
            else invert_Rt po.R po.t).2),
       (rel p).ts⟩ := by
  rw [resolvePair_eq scaleOf rel st p adj inv po adjE hadj hpo hadjE] at hres
  cases hres
  exact lookupTri_update_self _ _

/-- Claim C3 counterexample: resolving the pair `(2,1)` against the seed
state of `[(0,1)]` goes through the inverted-adjacency branch; the recorded
global points are `[(-1,0,1)]`, while transforming with the inverse of the
anchor's pose — what the claim asserts for the inverted case too — would
give `[(-1,0,0)]`. -/
theorem claim_C3_counterexample :
    (match resolvePair constScale c6rel c2st (2, 1) with
     | .resolved st => (lookupTri st.triang (2, 1)).map TriEntry.pts
     | _ => none) = some [![-1, 0, 1]] ∧
    (c6rel (2, 1)).triang.map (fun x =>
      (invert_Rt c2po.R c2po.t).1.mulVec
        ((pairScale constScale c6rel c2adjE (2, 1)).1 • x) +
      (invert_Rt c2po.R c2po.t).2) = [![-1, 0, 0]] ∧
    (![(-1 : ℚ), 0, 1] : Pt) ≠ ![-1, 0, 0] := by
  refine ⟨?_, ?_, ?_⟩
  · norm_num [resolvePair, fapAux, c2st, seedState, c6rel, newTriPts, newPose,
      pairScale, commonPts, commonIds, selPts, edgeRT, invert_Rt, constScale,
      lookupTri, lookupA, updateTri, updateAssoc, posOf, List.find?,
      Matrix.transpose_one, Matrix.one_mulVec]
  · norm_num [c6rel, c2po, invert_Rt, pairScale, constScale,
      Matrix.transpose_one, Matrix.one_mulVec]
  · intro h
    have h2 := congrFun h 2
    norm_num at h2

/-- Claim C3 witness: the inverted-adjacency resolution of the pair `(2,1)`
records its points transformed by the inverse of the newly placed view's
pose `(R2, t2)`. -/
theorem claim_C3_witness :
    lookupTri ((⟨updateAssoc c2st.poses 2
          (newPose constScale c6rel c2adjE (2, 1) true c2po),
        updateTri c2st.triang
          ⟨(2, 1), newTriPts constScale c6rel c2adjE (2, 1) true c2po,
            (c6rel (2, 1)).ts⟩,
        if (pairScale constScale c6rel c2adjE (2, 1)).1 < 1/10 then
          c2st.warnings ++ [(2, 1)]
        else c2st.warnings⟩ : CState)).triang (2, 1) = some
      ⟨(2, 1), (c6rel (2, 1)).triang.map (fun x =>
          (if true then
              invert_Rt ((edgeRT c6rel (2, 1) true).1 * c2po.R)
                ((edgeRT c6rel (2, 1) true).1.mulVec c2po.t +
                  (pairScale constScale c6rel c2adjE (2, 1)).1 •
                    (edgeRT c6rel (2, 1) true).2)
            else invert_Rt c2po.R c2po.t).1.mulVec
            ((pairScale constScale c6rel c2adjE (2, 1)).1 • x) +
          (if true then
              invert_Rt ((edgeRT c6rel (2, 1) true).1 * c2po.R)
                ((edgeRT c6rel (2, 1) true).1.mulVec c2po.t +
                  (pairScale constScale c6rel c2adjE (2, 1)).1 •
                    (edgeRT c6rel (2, 1) true).2)
            else invert_Rt c2po.R c2po.t).2),
       (c6rel (2, 1)).ts⟩ := by
  refine claim_C3_points constScale c6rel c2st (2, 1) (0, 1) true c2po c2adjE _
    ?_ ?_ ?_ ?_
  · norm_num [fapAux, c2st, seedState]
  · show lookupA c2st.poses 1 = some c2po
    norm_num [c2st, seedState, lookupA, updateAssoc, c2po, List.find?]
  · norm_num [lookupTri, c2st, seedState, c2adjE, List.find?]
  · exact resolvePair_eq constScale c6rel c2st (2, 1) (0, 1) true c2po c2adjE
      (by norm_num [fapAux, c2st, seedState])
      (by show lookupA c2st.poses 1 = some c2po
          norm_num [c2st, seedState, lookupA, updateAssoc, c2po, List.find?])
      (by norm_num [lookupTri, c2st, seedState, c2adjE, List.find?])

/-- Claim C8: an estimated relative scale below 0.1 produces only the
(non-fatal) warning: the edge still resolves — no error result — and the
`GlobalPose` and global triangulated-points entries are recorded by exactly
the same formulas as for any other scale value; the resulting state differs
from the generic resolution only in the appended warning. -/
theorem claim_C8_lowscale (scaleOf : List Pt → List Pt → ℚ × Option ℚ)
    (rel : V × V → RelPose) (st : CState) (p adj : V × V) (inv : Bool)
    (po : Pose) (adjE : TriEntry)
    (hadj : fapAux p st.triang none = (some adj, inv))
    (hpo : lookupA st.poses (if inv then p.2 else p.1) = some po)
    (hadjE : lookupTri st.triang adj = some adjE)
    (hs : (pairScale scaleOf rel adjE p).1 < 1/10) :
    resolvePair scaleOf rel st p = .resolved
      ⟨updateAssoc st.poses (if inv then p.1 else p.2)
          (newPose scaleOf rel adjE p inv po),
       updateTri st.triang ⟨p, newTriPts scaleOf rel adjE p inv po, (rel p).ts⟩,
       st.warnings ++ [p]⟩ ∧
    lookupA (updateAssoc st.poses (if inv then p.1 else p.2)
        (newPose scaleOf rel adjE p inv po)) (if inv then p.1 else p.2) =
      some (newPose scaleOf rel adjE p inv po) ∧
    lookupTri (updateTri st.triang
        ⟨p, newTriPts scaleOf rel adjE p inv po, (rel p).ts⟩) p =
      some ⟨p, newTriPts scaleOf rel adjE p inv po, (rel p).ts⟩ := by
  refine ⟨?_, lookupA_update_self _ _ _, lookupTri_update_self _ _⟩
  rw [resolvePair_eq scaleOf rel st p adj inv po adjE hadj hpo hadjE, if_pos hs]

/-- Claim C8 witness: injecting the relative scale 0.01 on the pair `(1,2)`
still records a pose for view 2, with only the warning added. -/
theorem claim_C8_witness :
    resolvePair lowScale c6rel c2st (1, 2) = .resolved
      ⟨updateAssoc c2st.poses 2 (newPose lowScale c6rel c2adjE (1, 2) false c2po),
       updateTri c2st.triang
         ⟨(1, 2), newTriPts lowScale c6rel c2adjE (1, 2) false c2po, (c6rel (1, 2)).ts⟩,
       c2st.warnings ++ [(1, 2)]⟩ :=
  (claim_C8_lowscale lowScale c6rel c2st (1, 2) (0, 1) false c2po c2adjE
    (by norm_num [fapAux, c2st, seedState])
    (by show lookupA c2st.poses 1 = some c2po
        norm_num [c2st, seedState, lookupA, updateAssoc, c2po, List.find?])
    (by norm_num [lookupTri, c2st, seedState, c2adjE, List.find?])
    (by norm_num [pairScale, lowScale])).1

theorem onePass_error_eq (scaleOf : List Pt → List Pt → ℚ × Option ℚ)
    (rel : V × V → RelPose) :
    ∀ (l : List (V × V)) (st : CState) (acc : List (V × V)) (e : ConcatErr),
      onePass scaleOf rel st acc l = .error e → e = .keyErr := by
  intro l
  induction l with
  | nil => intro st acc e h; simp [onePass] at h
  | cons p rest ih =>
      intro st acc e h
      unfold onePass at h
      cases hres : resolvePair scaleOf rel st p with
      | unmatched => rw [hres] at h; exact ih _ _ _ h
      | keyErr =>
          rw [hres] at h
          have h3 : (Except.error ConcatErr.keyErr :
              Except ConcatErr (CState × List (V × V))) = .error e := h
          injection h3 with h4
          exact h4.symm
      | resolved st2 => rw [hres] at h; exact ih _ _ _ h

theorem onePass_length (scaleOf : List Pt → List Pt → ℚ × Option ℚ)
    (rel : V × V → RelPose) :
    ∀ (l : List (V × V)) (st : CState) (acc : List (V × V))
      (st2 : CState) (um : List (V × V)),
      onePass scaleOf rel st acc l = .ok (st2, um) →
      um.length ≤ acc.length + l.length := by
  intro l
  induction l with
  | nil =>
      intro st acc st2 um h
      have h2 : (Except.ok (st, acc) :
          Except ConcatErr (CState × List (V × V))) = .ok (st2, um) := h
      injection h2 with h3
      have h4 : acc = um := congrArg Prod.snd h3
      rw [← h4]
      simp
  | cons p rest ih =>
      intro st acc st2 um h
      unfold onePass at h
      cases hres : resolvePair scaleOf rel st p with
      | unmatched =>
          rw [hres] at h
          have h2 := ih _ _ _ _ h
          by_cases hmem : p ∈ acc
          · rw [if_pos hmem] at h2
            simp only [List.length_cons]
            omega
          · rw [if_neg hmem] at h2
            simp only [List.length_append, List.length_cons, List.length_nil]
              at h2 ⊢
            omega
      | keyErr => rw [hres] at h; cases h
      | resolved stx =>
          rw [hres] at h
          have h2 := ih _ _ _ _ h
          simp only [List.length_cons]
          omega

theorem onePass_nodup (scaleOf : List Pt → List Pt → ℚ × Option ℚ)
    (rel : V × V → RelPose) :
    ∀ (l : List (V × V)) (st : CState) (acc : List (V × V))
      (st2 : CState) (um : List (V × V)),
      onePass scaleOf rel st acc l = .ok (st2, um) → acc.Nodup → um.Nodup := by
  intro l
  induction l with
  | nil =>
      intro st acc st2 um h hnd
      have h2 : (Except.ok (st, acc) :
          Except ConcatErr (CState × List (V × V))) = .ok (st2, um) := h
      injection h2 with h3
      have h4 : acc = um := congrArg Prod.snd h3
      rw [← h4]
      exact hnd
  | cons p rest ih =>
      intro st acc st2 um h hnd
      unfold onePass at h
      cases hres : resolvePair scaleOf rel st p with
      | unmatched =>
          rw [hres] at h
          refine ih _ _ _ _ h ?_
          by_cases hmem : p ∈ acc
          · rwa [if_pos hmem]
          · rw [if_neg hmem]
            simp [List.nodup_append, hnd, hmem]
      | keyErr => rw [hres] at h; cases h
      | resolved stx => rw [hres] at h; exact ih _ _ _ _ h hnd

theorem concatLoop_eq_ok (scaleOf : List Pt → List Pt → ℚ × Option ℚ)
    (rel : V × V → RelPose) (fuel : ℕ) (st st2 : CState)
    (pairs um : List (V × V)) (hemp : pairs.isEmpty = false)
    (hop : onePass scaleOf rel st [] pairs = .ok (st2, um)) :
    concatLoop scaleOf rel (fuel + 1) st pairs =
      if pairs.length = um.length then .error (.stuck um)
      else concatLoop scaleOf rel fuel st2 um := by
  conv_lhs => unfold concatLoop
  rw [if_neg (by rw [hemp]; exact Bool.false_ne_true), hop]

theorem concatLoop_eq_err (scaleOf : List Pt → List Pt → ℚ × Option ℚ)
    (rel : V × V → RelPose) (fuel : ℕ) (st : CState)
    (pairs : List (V × V)) (e : ConcatErr) (hemp : pairs.isEmpty = false)
    (hop : onePass scaleOf rel st [] pairs = .error e) :
    concatLoop scaleOf rel (fuel + 1) st pairs = .error e := by
  conv_lhs => unfold concatLoop
  rw [if_neg (by rw [hemp]; exact Bool.false_ne_true), hop]

theorem concatLoop_ne_fuel (scaleOf : List Pt → List Pt → ℚ × Option ℚ)
    (rel : V × V → RelPose) :
    ∀ (fuel : ℕ) (st : CState) (pairs : List (V × V)), pairs.length < fuel →
      concatLoop scaleOf rel fuel st pairs ≠ .error .fuelExhausted := by
  intro fuel
  induction fuel with
  | zero => intro st pairs h; omega
  | succ fuel ih =>
      intro st pairs h
      cases hemp : pairs.isEmpty with
      | true =>
          unfold concatLoop
          rw [if_pos hemp]
          intro hcon; cases hcon
      | false =>
          cases hop : onePass scaleOf rel st [] pairs with
          | error e =>
              rw [concatLoop_eq_err scaleOf rel fuel st pairs e hemp hop]
              have he := onePass_error_eq scaleOf rel pairs st [] e hop
              subst he
              intro hcon
              injection hcon with h2
              cases h2
          | ok pr =>
              obtain ⟨st2, um⟩ := pr
              rw [concatLoop_eq_ok scaleOf rel fuel st st2 pairs um hemp hop]
              by_cases hlen : pairs.length = um.length
              · rw [if_pos hlen]
                intro hcon
                injection hcon with h2
                cases h2
              · rw [if_neg hlen]
                refine ih st2 um ?_
                have h1 : um.length ≤ pairs.length := by
                  have := onePass_length scaleOf rel pairs st [] st2 um hop
                  simpa using this
                have h2 : um.length < pairs.length :=
                  lt_of_le_of_ne h1 (fun he => hlen he.symm)
                omega

theorem concatLoop_stuck (scaleOf : List Pt → List Pt → ℚ × Option ℚ)
    (rel : V × V → RelPose) :
    ∀ (fuel : ℕ) (st : CState) (pairs : List (V × V)) (l : List (V × V)),
      concatLoop scaleOf rel fuel st pairs = .error (.stuck l) →
      l ≠ [] ∧ l.Nodup := by
  intro fuel
  induction fuel with
  | zero =>
      intro st pairs l h
      unfold concatLoop at h
      injection h with h2
      cases h2
  | succ fuel ih =>
      intro st pairs l h
      cases hemp : pairs.isEmpty with
      | true =>
          unfold concatLoop at h
          rw [if_pos hemp] at h
          cases h
      | false =>
          cases hop : onePass scaleOf rel st [] pairs with
          | error e =>
              rw [concatLoop_eq_err scaleOf rel fuel st pairs e hemp hop] at h
              have he := onePass_error_eq scaleOf rel pairs st [] e hop
              subst he
              injection h with h2
              cases h2
          | ok pr =>
              obtain ⟨st2, um⟩ := pr
              rw [concatLoop_eq_ok scaleOf rel fuel st st2 pairs um hemp hop] at h
              by_cases hlen : pairs.length = um.length
              · rw [if_pos hlen] at h
                injection h with h2
                injection h2 with h3
                subst h3
                constructor
                · intro hnil
                  rw [hnil] at hlen
                  simp at hlen
                  rw [hlen] at hemp
                  simp at hemp
                · exact onePass_nodup scaleOf rel pairs st [] st2 um hop
                    List.nodup_nil
              · rw [if_neg hlen] at h
                exact ih st2 um l h

/-- Claim C4 (amended): the work-list loop of `concatenate_relative_poses`
terminates within `|edges|` passes — run with fuel `|edges|` it never
exhausts it, because a pass that resolves nothing still strictly shrinks the
work-list by dropping duplicate unmatched pairs, or else raises — and
whenever it raises the stuck error, the reported list names every distinct
still-unresolved pair: it is nonempty and duplicate-free.  The original
claim that every pass either resolves an edge or raises fails on duplicated
edges, see `claim_C4_counterexample`. -/
theorem claim_C4_termination (scaleOf : List Pt → List Pt → ℚ × Option ℚ)
    (rel : V × V → RelPose) (tree : List (V × V)) :
    concatenate_relative_poses scaleOf rel tree ≠ .error .fuelExhausted ∧
    (∀ l, concatenate_relative_poses scaleOf rel tree = .error (.stuck l) →
      l ≠ [] ∧ l.Nodup) := by
  constructor
  · cases tree with
    | nil =>
        unfold concatenate_relative_poses
        intro hcon
        injection hcon with h2
        cases h2
    | cons p0 rest =>
        exact concatLoop_ne_fuel scaleOf rel (rest.length + 1) (seedState rel p0)
          rest (Nat.lt_succ_self _)
  · intro l h
    cases tree with
    | nil =>
        unfold concatenate_relative_poses at h
        injection h with h2
        cases h2
    | cons p0 rest =>
        exact concatLoop_stuck scaleOf rel (rest.length + 1) (seedState rel p0)
          rest l h

/-- Claim C4 witness: on the disconnected tree `[(0,1),(2,3),(2,3)]` the run
raises the stuck error naming the single distinct stuck pair `(2,3)`. -/
theorem claim_C4_witness :
    ([((2 : V), (3 : V))] : List (V × V)) ≠ [] ∧
    ([((2 : V), (3 : V))] : List (V × V)).Nodup :=
  (claim_C4_termination constScale c6rel [(0, 1), (2, 3), (2, 3)]).2 [(2, 3)]
    (by norm_num [concatenate_relative_poses, concatLoop, onePass, resolvePair,
      fapAux, seedState, List.isEmpty])

/-- Claim C4 counterexample: with the duplicated pair `(2,3)`, a full pass
resolves no edge (the state is unchanged) yet the stuck error is not raised
in that pass, because deduplication makes the unmatched list strictly
shorter than the work-list. -/
theorem claim_C4_counterexample :
    onePass constScale c6rel (seedState c6rel (0, 1)) [] [(2, 3), (2, 3)]
      = .ok (seedState c6rel (0, 1), [(2, 3)]) ∧
    ([((2 : V), (3 : V)), (2, 3)] : List (V × V)).length ≠
      ([((2 : V), (3 : V))] : List (V × V)).length := by
  constructor
  · norm_num [onePass, resolvePair, fapAux, seedState]
  · decide

theorem fapAux_none (p : V × V) :
    ∀ (entries : List TriEntry) (acc : Option (V × V)),
      (∀ e ∈ entries, (p.1 ≠ e.pair.1 ∧ p.1 ≠ e.pair.2) ∧
        (p.2 ≠ e.pair.1 ∧ p.2 ≠ e.pair.2)) →
      fapAux p entries acc = (acc, false) := by
  intro entries
  induction entries with
  | nil => intro acc _; rfl
  | cons e0 rest ih =>
      intro acc h
      have h0 := h e0 (List.mem_cons_self e0 rest)
      unfold fapAux
      rw [if_neg (by tauto), if_neg (by tauto)]
      exact ih acc (fun e he => h e (List.mem_cons_of_mem e0 he))

theorem fapAux_direct (p : V × V) :
    ∀ (entries : List TriEntry) (acc : Option (V × V)),
      (∀ e ∈ entries, p.2 ≠ e.pair.1 ∧ p.2 ≠ e.pair.2) →
      (∃ e ∈ entries, p.1 = e.pair.1 ∨ p.1 = e.pair.2) →
      ∃ k, fapAux p entries acc = (some k, false) ∧ ∃ e ∈ entries, e.pair = k := by
  intro entries
  induction entries with
  | nil => rintro acc _ ⟨e, he, _⟩; cases he
  | cons e0 rest ih =>
      intro acc hno hex
      by_cases h1 : p.1 = e0.pair.1 ∨ p.1 = e0.pair.2
      · by_cases hrest : ∃ e ∈ rest, p.1 = e.pair.1 ∨ p.1 = e.pair.2
        · obtain ⟨k, hk, e2, he2, hke⟩ :=
            ih (some e0.pair) (fun e he => hno e (List.mem_cons_of_mem e0 he)) hrest
          refine ⟨k, ?_, e2, List.mem_cons_of_mem e0 he2, hke⟩
          unfold fapAux
          rw [if_pos h1]
          exact hk
        · have hstop : fapAux p rest (some e0.pair) = (some e0.pair, false) := by
            apply fapAux_none
            intro e he
            refine ⟨⟨?_, ?_⟩, hno e (List.mem_cons_of_mem e0 he)⟩
            · exact fun hc => hrest ⟨e, he, Or.inl hc⟩
            · exact fun hc => hrest ⟨e, he, Or.inr hc⟩
          refine ⟨e0.pair, ?_, e0, List.mem_cons_self e0 rest, rfl⟩
          unfold fapAux
          rw [if_pos h1]
          exact hstop
      · have h2 : ¬(p.2 = e0.pair.1 ∨ p.2 = e0.pair.2) := by
          have := hno e0 (List.mem_cons_self e0 rest)
          tauto
        have hex2 : ∃ e ∈ rest, p.1 = e.pair.1 ∨ p.1 = e.pair.2 := by
          rcases hex with ⟨e, he, hm⟩
          rcases List.mem_cons.1 he with he2 | he2
          · exact absurd (he2 ▸ hm) h1
          · exact ⟨e, he2, hm⟩
        obtain ⟨k, hk, e2, he2, hke⟩ :=
          ih acc (fun e he => hno e (List.mem_cons_of_mem e0 he)) hex2
        refine ⟨k, ?_, e2, List.mem_cons_of_mem e0 he2, hke⟩
        unfold fapAux
        rw [if_neg h1, if_neg h2]
        exact hk

theorem lookupTri_isSome {l : List TriEntry} {k : V × V}
    (h : ∃ e ∈ l, e.pair = k) : ∃ adjE, lookupTri l k = some adjE := by
  obtain ⟨e, he, hk⟩ := h
  induction l with
  | nil => cases he
  | cons x rest ih =>
      rcases List.mem_cons.1 he with he2 | he2
      · subst he2
        refine ⟨e, ?_⟩
        unfold lookupTri
        rw [List.find?_cons_of_pos _ (by simp [hk])]
      · by_cases hx : x.pair = k
        · refine ⟨x, ?_⟩
          unfold lookupTri
          rw [List.find?_cons_of_pos _ (by simp [hx])]
        · obtain ⟨adjE, hadjE⟩ := ih he2
          refine ⟨adjE, ?_⟩
          unfold lookupTri
          rw [List.find?_cons_of_neg _ (by simp [hx])]
          exact hadjE

theorem properLoop (scaleOf : List Pt → List Pt → ℚ × Option ℚ)
    (rel : V × V → RelPose) :
    ∀ (rest : List (V × V)) (seen : List V) (st : CState),
      okOrderB seen rest = true →
      (∀ v, v ∈ seen ↔ ∃ e ∈ st.triang, v = e.pair.1 ∨ v = e.pair.2) →
      (∀ v ∈ seen, (lookupA st.poses v).isSome = true) →
      ∃ st2, onePass scaleOf rel st [] rest = .ok (st2, []) ∧
        ∀ v ∈ seen, lookupA st2.poses v = lookupA st.poses v := by
  intro rest
  induction rest with
  | nil =>
      intro seen st _ _ _
      exact ⟨st, rfl, fun v _ => rfl⟩
  | cons pr rest ih =>
      intro seen st hok hkv hsome
      obtain ⟨ha, hb, hok2⟩ := okOrderB_step hok
      have hnob : ∀ e ∈ st.triang, pr.2 ≠ e.pair.1 ∧ pr.2 ≠ e.pair.2 := by
        intro e he
        constructor <;> intro hcon <;>
          exact hb ((hkv pr.2).2 ⟨e, he, by tauto⟩)
      have hexa : ∃ e ∈ st.triang, pr.1 = e.pair.1 ∨ pr.1 = e.pair.2 :=
        (hkv pr.1).1 ha
      obtain ⟨adj, hfap, hadjmem⟩ := fapAux_direct pr st.triang none hnob hexa
      obtain ⟨adjE, hadjE⟩ := lookupTri_isSome hadjmem
      obtain ⟨po, hpo⟩ :=
        Option.isSome_iff_exists.1 (hsome pr.1 ha)
      have hpo2 : lookupA st.poses (if false then pr.2 else pr.1) = some po := hpo
      have hres :=
        resolvePair_eq scaleOf rel st pr adj false po adjE hfap hpo2 hadjE
      have hnotin : st.triang.any
          (fun x => decide (x.pair = (⟨pr, newTriPts scaleOf rel adjE pr false po,
            (rel pr).ts⟩ : TriEntry).pair)) = false := by
        cases hany : st.triang.any
            (fun x => decide (x.pair = pr)) with
        | false => rfl
        | true =>
            exfalso
            rcases List.any_eq_true.1 hany with ⟨x, hx, hxp⟩
            have hxp2 : x.pair = pr := of_decide_eq_true hxp
            exact hb ((hkv pr.2).2 ⟨x, hx, Or.inr (by rw [hxp2])⟩)
      set npose := newPose scaleOf rel adjE pr false po with hnp
      set ntri : TriEntry :=
        ⟨pr, newTriPts scaleOf rel adjE pr false po, (rel pr).ts⟩ with hnt
      set st' : CState :=
        ⟨updateAssoc st.poses pr.2 npose,
         updateTri st.triang ntri,
         if (pairScale scaleOf rel adjE pr).1 < 1/10 then st.warnings ++ [pr]
         else st.warnings⟩ with hst'
      have htri' : st'.triang = st.triang ++ [ntri] := by
        show updateTri st.triang ntri = st.triang ++ [ntri]
        exact updateTri_append st.triang ntri hnotin
      have hkv' : ∀ v, v ∈ seen ++ [pr.2] ↔
          ∃ e ∈ st'.triang, v = e.pair.1 ∨ v = e.pair.2 := by
        intro v
        rw [htri']
        constructor
        · intro hv
          rcases List.mem_append.1 hv with hv | hv
          · obtain ⟨e, he, hve⟩ := (hkv v).1 hv
            exact ⟨e, List.mem_append.2 (Or.inl he), hve⟩
          · have hv2 : v = pr.2 := by simpa using hv
            exact ⟨ntri, List.mem_append.2 (Or.inr (List.mem_singleton.2 rfl)),
              Or.inr hv2⟩
        · rintro ⟨e, he, hve⟩
          rcases List.mem_append.1 he with he | he
          · exact List.mem_append.2 (Or.inl ((hkv v).2 ⟨e, he, hve⟩))
          · have he2 : e = ntri := by simpa using he
            subst he2
            rcases hve with hve | hve
            · exact List.mem_append.2 (Or.inl (by rw [hve] at *; exact ha))
            · exact List.mem_append.2 (Or.inr (by simp [hve]))
      have hsome' : ∀ v ∈ seen ++ [pr.2], (lookupA st'.poses v).isSome = true := by
        intro v hv
        rcases List.mem_append.1 hv with hv | hv
        · have hvne : v ≠ pr.2 := fun he => hb (he ▸ hv)
          show (lookupA (updateAssoc st.poses pr.2 npose) v).isSome = true
          rw [lookupA_update_other st.poses pr.2 v npose hvne]
          exact hsome v hv
        · have hv2 : v = pr.2 := by simpa using hv
          rw [hv2]
          show (lookupA (updateAssoc st.poses pr.2 npose) pr.2).isSome = true
          rw [lookupA_update_self]
          rfl
      obtain ⟨st2, hpass, hpres⟩ := ih (seen ++ [pr.2]) st' hok2 hkv' hsome'
      refine ⟨st2, ?_, ?_⟩
      · show onePass scaleOf rel st [] (pr :: rest) = .ok (st2, [])
        unfold onePass
        rw [hres]
        exact hpass
      · intro v hv
        have hvne : v ≠ pr.2 := fun he => hb (he ▸ hv)
        rw [hpres v (List.mem_append.2 (Or.inl hv))]
        show lookupA (updateAssoc st.poses pr.2 npose) v = lookupA st.poses v
        exact lookupA_update_other st.poses pr.2 v npose hvne

/-- Claim C6 (amended): in the state built by `concatenate_relative_poses`,
the root view (first element of the first tree edge) is seeded with identity
rotation, zero translation and `relative_scale` 1; the second view of the
first edge is seeded with exactly that edge's relative rotation/translation;
and that edge's triangulated points form the first (and only initial) global
triangulated-points entry, unrescaled.  When every later edge attaches one
fresh view to an already-seen view (a spanning tree in traversal order), the
returned mapping still carries the identity pose at the root.  The original
claim's stronger promise — that the root pose survives every run over a
validator-approved edge list — fails, because `verify_view_tree` accepts
edge lists with undirected cycles that overwrite the root; see
`claim_C6_counterexample`. -/
theorem claim_C6_root (scaleOf : List Pt → List Pt → ℚ × Option ℚ)
    (rel : V × V → RelPose) (p0 : V × V) (rest : List (V × V))
    (hne : p0.1 ≠ p0.2) :
    (lookupA (seedState rel p0).poses p0.1 = some idPose ∧
     lookupA (seedState rel p0).poses p0.2 =
       some ⟨(rel p0).Rd, (rel p0).td, 1, none⟩ ∧
     (seedState rel p0).triang = [⟨p0, (rel p0).triang, (rel p0).ts⟩]) ∧
    (okOrderB [p0.1, p0.2] rest = true →
      runRootPose scaleOf rel (p0 :: rest) = some (some idPose)) := by
  have hseed1 : lookupA (seedState rel p0).poses p0.1 = some idPose := by
    show lookupA (updateAssoc (updateAssoc [] p0.1 idPose) p0.2 _) p0.1 =
      some idPose
    rw [lookupA_update_other _ _ _ _ hne, lookupA_update_self]
  have hseed2 : lookupA (seedState rel p0).poses p0.2 =
      some ⟨(rel p0).Rd, (rel p0).td, 1, none⟩ := by
    show lookupA (updateAssoc _ p0.2 _) p0.2 = _
    rw [lookupA_update_self]
  refine ⟨⟨hseed1, hseed2, rfl⟩, ?_⟩
  intro hok
  have hkv : ∀ v, v ∈ [p0.1, p0.2] ↔
      ∃ e ∈ (seedState rel p0).triang, v = e.pair.1 ∨ v = e.pair.2 := by
    intro v
    simp [seedState]
  have hsome : ∀ v ∈ [p0.1, p0.2],
      (lookupA (seedState rel p0).poses v).isSome = true := by
    intro v hv
    rcases List.mem_cons.1 hv with hv1 | hv1
    · rw [hv1, hseed1]; rfl
    · have hv2 : v = p0.2 := by simpa using hv1
      rw [hv2, hseed2]; rfl
  cases rest with
  | nil =>
      have hc : concatenate_relative_poses scaleOf rel [p0] =
          .ok (seedState rel p0) := rfl
      show (match concatenate_relative_poses scaleOf rel (p0 :: []) with
        | .ok st => some (lookupA st.poses p0.1)
        | .error _ => none) = some (some idPose)
      rw [hc]
      show some (lookupA (seedState rel p0).poses p0.1) = some (some idPose)
      rw [hseed1]
  | cons q qrest =>
      obtain ⟨st2, hpass, hpres⟩ := properLoop scaleOf rel (q :: qrest)
        [p0.1, p0.2] (seedState rel p0) hok hkv hsome
      have hroot : lookupA st2.poses p0.1 = some idPose := by
        rw [hpres p0.1 (by simp), hseed1]
      have hlen : ¬ (q :: qrest).length = ([] : List (V × V)).length := by simp
      have hc : concatenate_relative_poses scaleOf rel (p0 :: q :: qrest) =
          .ok st2 := by
        show concatLoop scaleOf rel ((q :: qrest).length + 1) (seedState rel p0)
          (q :: qrest) = .ok st2
        rw [concatLoop_eq_ok scaleOf rel ((q :: qrest).length) (seedState rel p0)
          st2 (q :: qrest) [] rfl hpass, if_neg hlen]
        show concatLoop scaleOf rel (qrest.length + 1) st2 [] = .ok st2
        rfl
      show (match concatenate_relative_poses scaleOf rel (p0 :: q :: qrest) with
        | .ok st => some (lookupA st.poses p0.1)
        | .error _ => none) = some (some idPose)
      rw [hc]
      show some (lookupA st2.poses p0.1) = some (some idPose)
      rw [hroot]

/-- Claim C6 witness: on the properly ordered tree `[(0,1),(1,2)]` the run
succeeds and the root view 0 keeps the identity pose. -/
theorem claim_C6_witness :
    runRootPose constScale c6rel [(0, 1), (1, 2)] = some (some idPose) :=
  (claim_C6_root constScale c6rel (0, 1) [(1, 2)] (by norm_num)).2 (by decide)

/-- Claim C6 counterexample: `verify_view_tree` accepts
`[(0,1),(1,2),(0,2)]` (its directed graph is acyclic and connected), yet on
this input a later pass re-places the root view 0 — the returned root pose
is `(I, (1,1,-1))`, not the identity pose. -/
theorem claim_C6_counterexample :
    verify_view_tree [(0, 1), (1, 2), (0, 2)] = true ∧
    runRootPose constScale c6rel [(0, 1), (1, 2), (0, 2)] =
      some (some ⟨1, ![1, 1, -1], 1, none⟩) ∧
    (⟨1, ![1, 1, -1], 1, none⟩ : Pose) ≠ idPose := by
  refine ⟨by decide, ?_, ?_⟩
  · norm_num [runRootPose, concatenate_relative_poses, concatLoop, onePass,
      resolvePair, fapAux, seedState, updateAssoc, lookupA, updateTri, lookupTri,
      newPose, newTriPts, pairScale, commonPts, commonIds, selPts, edgeRT,
      invert_Rt, c6rel, constScale, idPose, posOf, Matrix.one_mulVec,
      Matrix.transpose_one, List.find?]
  · intro h
    have h2 := congrArg Pose.t h
    have h3 := congrFun h2 0
    norm_num [idPose] at h3

/- ===================================================================
   Theorems for Section 3.
   =================================================================== -/

theorem interCard_eq_card (t1 t2 : List ℕ) :
    interCard t1 t2 = (t1.toFinset ∩ t2.toFinset).card := by
  unfold interCard
  rw [← List.toFinset_card_of_nodup (List.Nodup.filter _ t1.nodup_dedup)]
  congr 1
  ext x
  simp [List.mem_toFinset, List.mem_filter, List.mem_dedup]

theorem interCard_comm (t1 t2 : List ℕ) : interCard t1 t2 = interCard t2 t1 := by
  rw [interCard_eq_card, interCard_eq_card, Finset.inter_comm]

theorem mem_pairsOf {x y : V} :
    ∀ {l : List V}, (x, y) ∈ pairsOf l → x ∈ l ∧ y ∈ l := by
  intro l
  induction l with
  | nil => intro h; cases h
  | cons z zs ih =>
      intro h
      rcases List.mem_append.1 h with h | h
      · rcases List.mem_map.1 h with ⟨w, hw, hxy⟩
        have h1 : z = x := congrArg Prod.fst hxy
        have h2 : w = y := congrArg Prod.snd hxy
        exact ⟨h1 ▸ List.mem_cons_self z zs, List.mem_cons_of_mem z (h2 ▸ hw)⟩
      · have h2 := ih h
        exact ⟨List.mem_cons_of_mem z h2.1, List.mem_cons_of_mem z h2.2⟩

theorem pairsOf_mem_of_mem {a b : V} :
    ∀ {l : List V}, a ∈ l → b ∈ l → a ≠ b →
      (a, b) ∈ pairsOf l ∨ (b, a) ∈ pairsOf l := by
  intro l
  induction l with
  | nil => intro h; cases h
  | cons z zs ih =>
      intro ha hb hab
      rcases List.mem_cons.1 ha with ha1 | ha1
      · have hbz : b ∈ zs := by
          rcases List.mem_cons.1 hb with h | h
          · exact absurd (ha1.trans h.symm) hab
          · exact h
        left
        exact List.mem_append.2 (Or.inl (List.mem_map.2 ⟨b, hbz, by rw [ha1]⟩))
      · rcases List.mem_cons.1 hb with hb1 | hb1
        · right
          exact List.mem_append.2 (Or.inl (List.mem_map.2 ⟨a, ha1, by rw [hb1]⟩))
        · rcases ih ha1 hb1 hab with h | h
          · exact Or.inl (List.mem_append.2 (Or.inr h))
          · exact Or.inr (List.mem_append.2 (Or.inr h))

/-- Claim C9: in the graph built by `build_view_graph`, an edge joins the
distinct views `a` and `b` iff the intersection of their timestamp sets has
size strictly greater than 8, and every stored edge weight equals that
intersection size.  The construction is a pure function of `(views, lm)`:
determinism and absence of mutation are inherent in the definition. -/
theorem claim_C9_graph (views : List V) (lm : V → List ℕ) (a b : V)
    (ha : a ∈ views) (hb : b ∈ views) (hab : a ≠ b) :
    (hasEdgeB (build_view_graph views lm) a b = true ↔
      8 < interCard (lm a) (lm b)) ∧
    (∀ n : ℕ, ((a, b, n) ∈ build_view_graph views lm ∨
        (b, a, n) ∈ build_view_graph views lm) →
      n = interCard (lm a) (lm b)) := by
  constructor
  · constructor
    · intro h
      rcases List.any_eq_true.1 h with ⟨e, he, hcond⟩
      rcases List.mem_filterMap.1 he with ⟨ab, _, hf⟩
      by_cases hlt : 8 < interCard (lm ab.1) (lm ab.2)
      · rw [if_pos hlt] at hf
        injection hf with hf2
        simp only [Bool.or_eq_true, Bool.and_eq_true, decide_eq_true_eq] at hcond
        rcases hcond with ⟨h1, h2⟩ | ⟨h1, h2⟩
        · rw [← hf2] at h1 h2
          have h1b : ab.1 = a := h1
          have h2b : ab.2 = b := h2
          rwa [h1b, h2b] at hlt
        · rw [← hf2] at h1 h2
          have h1b : ab.1 = b := h1
          have h2b : ab.2 = a := h2
          rw [h1b, h2b, interCard_comm] at hlt
          exact hlt
      · rw [if_neg hlt] at hf; cases hf
    · intro h
      rcases pairsOf_mem_of_mem ha hb hab with hmem | hmem
      · refine List.any_eq_true.2 ⟨(a, b, interCard (lm a) (lm b)), ?_, ?_⟩
        · exact List.mem_filterMap.2 ⟨(a, b), hmem, by rw [if_pos h]⟩
        · simp
      · have h2 : 8 < interCard (lm b) (lm a) := by rwa [interCard_comm]
        refine List.any_eq_true.2 ⟨(b, a, interCard (lm b) (lm a)), ?_, ?_⟩
        · exact List.mem_filterMap.2 ⟨(b, a), hmem, by rw [if_pos h2]⟩
        · simp
  · intro n hn
    rcases hn with hn | hn
    · rcases List.mem_filterMap.1 hn with ⟨ab, _, hf⟩
      by_cases hlt : 8 < interCard (lm ab.1) (lm ab.2)
      · rw [if_pos hlt] at hf
        injection hf with hf2
        simp only [Prod.mk.injEq] at hf2
        obtain ⟨h1, h2, h3⟩ := hf2
        rw [← h3, h1, h2]
      · rw [if_neg hlt] at hf; cases hf
    · rcases List.mem_filterMap.1 hn with ⟨ab, _, hf⟩
      by_cases hlt : 8 < interCard (lm ab.1) (lm ab.2)
      · rw [if_pos hlt] at hf
        injection hf with hf2
        simp only [Prod.mk.injEq] at hf2
        obtain ⟨h1, h2, h3⟩ := hf2
        rw [← h3, h1, h2, interCard_comm]
      · rw [if_neg hlt] at hf; cases hf

/-- Claim C9 witness: with ten shared timestamps between views 0 and 1, the
built graph joins them; view 2 shares nothing with view 0, so no edge. -/
theorem claim_C9_witness :
    hasEdgeB (build_view_graph [0, 1, 2] c9lm) 0 1 = true ∧
    hasEdgeB (build_view_graph [0, 1, 2] c9lm) 0 2 = false := by
  constructor
  · exact (claim_C9_graph [0, 1, 2] c9lm 0 1 (by decide) (by decide)
      (by decide)).1.2 (by decide)
  · cases h : hasEdgeB (build_view_graph [0, 1, 2] c9lm) 0 2 with
    | false => rfl
    | true =>
        exfalso
        have h2 := (claim_C9_graph [0, 1, 2] c9lm 0 2 (by decide) (by decide)
          (by decide)).1.1 h
        revert h2
        decide

theorem chainPose_eq (scaleOf : List Pt → List Pt → ℚ × Option ℚ)
    (rel : V × V → RelPose) (v1 w v2 : V)
    (h1 : w ≠ v1) (h3 : v2 ≠ w) :
    chainPose scaleOf rel v1 w v2 =
      ((edgeRT rel (w, v2) false).1 * (rel (v1, w)).Rd,
       (edgeRT rel (w, v2) false).1.mulVec (rel (v1, w)).td +
         (pairScale scaleOf rel ⟨(v1, w), (rel (v1, w)).triang, (rel (v1, w)).ts⟩
             (w, v2)).1 • (edgeRT rel (w, v2) false).2) := by
  set po1 : Pose := ⟨(rel (v1, w)).Rd, (rel (v1, w)).td, 1, none⟩ with hpo1def
  set aE : TriEntry := ⟨(v1, w), (rel (v1, w)).triang, (rel (v1, w)).ts⟩ with haEdef
  have hpo : lookupA (seedState rel (v1, w)).poses w = some po1 := by
    show lookupA (updateAssoc _ w _) w = _
    rw [lookupA_update_self]
  have hpo2 : lookupA (seedState rel (v1, w)).poses
      (if false then ((w : V), (v2 : V)).2 else ((w : V), (v2 : V)).1) =
      some po1 := hpo
  have hfap : fapAux (w, v2) (seedState rel (v1, w)).triang none =
      (some (v1, w), false) := by
    show fapAux (w, v2) [aE] none = (some (v1, w), false)
    unfold fapAux
    rw [if_pos (Or.inr rfl)]
    rfl
  have hadjE : lookupTri (seedState rel (v1, w)).triang (v1, w) = some aE := by
    show List.find? _ [aE] = _
    rw [List.find?_cons_of_pos _ (by simp [haEdef])]
  have hres := resolvePair_eq scaleOf rel (seedState rel (v1, w)) (w, v2) (v1, w)
    false po1 aE hfap hpo2 hadjE
  set st2 : CState :=
    ⟨updateAssoc (seedState rel (v1, w)).poses v2
        (newPose scaleOf rel aE (w, v2) false po1),
     updateTri (seedState rel (v1, w)).triang
        ⟨(w, v2), newTriPts scaleOf rel aE (w, v2) false po1, (rel (w, v2)).ts⟩,
     if (pairScale scaleOf rel aE (w, v2)).1 < 1/10
     then (seedState rel (v1, w)).warnings ++ [(w, v2)]
     else (seedState rel (v1, w)).warnings⟩ with hst2
  have hres2 : resolvePair scaleOf rel (seedState rel (v1, w)) (w, v2) =
      .resolved st2 := hres
  have hpass : onePass scaleOf rel (seedState rel (v1, w)) [] [(w, v2)] =
      .ok (st2, []) := by
    unfold onePass
    rw [hres2]
    rfl
  have hcat : concatenate_relative_poses scaleOf rel [(v1, w), (w, v2)] =
      .ok st2 := by
    show concatLoop scaleOf rel 2 (seedState rel (v1, w)) [(w, v2)] = .ok st2
    rw [concatLoop_eq_ok scaleOf rel 1 _ st2 [(w, v2)] [] rfl hpass,
      if_neg (by simp)]
    rfl
  unfold chainPose
  rw [hcat]
  show (match lookupA st2.poses v2 with
    | some po => (po.R, po.t)
    | none => ((1 : Mat), (0 : Pt))) = _
  have hlook : lookupA st2.poses v2 =
      some (newPose scaleOf rel aE (w, v2) false po1) :=
    lookupA_update_self _ _ _
  rw [hlook]
  rfl

/-- Claim C5: for a designated pair `(v1, v2)`, the robust estimator collects
the direct pairwise estimate plus one chained estimate per alternate two-hop
path `v1-w-v2` of the view graph (at most `max_paths` of them); its final
rotation and translation are the component-wise arithmetic means over all
collected estimates, each chained estimate being exactly the 2-edge
concatenation `Rd(w,v2) * Rd(v1,w)` etc.; and with zero alternate paths the
result is the direct estimate alone (a mean over the singleton list) with
the non-fatal diagnostic notice set. -/
theorem claim_C5_robust (scaleOf : List Pt → List Pt → ℚ × Option ℚ)
    (rel : V × V → RelPose) (views : List V) (lm : V → List ℕ)
    (v1 v2 : V) (max_paths : ℕ) (hv : v1 ≠ v2) :
    (compute_relative_poses_robust scaleOf rel views lm v1 v2 max_paths).Rd =
      matMean ((rel (v1, v2)).Rd ::
        ((twoHops views lm v1 v2).take max_paths).map (fun w =>
          (edgeRT rel (w, v2) false).1 * (rel (v1, w)).Rd)) ∧
    (compute_relative_poses_robust scaleOf rel views lm v1 v2 max_paths).td =
      vecMean ((rel (v1, v2)).td ::
        ((twoHops views lm v1 v2).take max_paths).map (fun w =>
          (edgeRT rel (w, v2) false).1.mulVec (rel (v1, w)).td +
            (pairScale scaleOf rel
                ⟨(v1, w), (rel (v1, w)).triang, (rel (v1, w)).ts⟩ (w, v2)).1 •
              (edgeRT rel (w, v2) false).2)) ∧
    (compute_relative_poses_robust scaleOf rel views lm v1 v2 max_paths).nPaths
      ≤ max_paths ∧
    (twoHops views lm v1 v2 = [] →
      compute_relative_poses_robust scaleOf rel views lm v1 v2 max_paths =
        ⟨(rel (v1, v2)).Rd, (rel (v1, v2)).td, 0, true⟩) := by
  have hmem : ∀ w ∈ (twoHops views lm v1 v2).take max_paths,
      w ≠ v1 ∧ w ≠ v2 := by
    intro w hw
    have hw2 : w ∈ twoHops views lm v1 v2 := List.take_subset _ _ hw
    have hw3 := List.mem_filter.1 hw2
    have hw4 := hw3.2
    simp only [Bool.and_eq_true, decide_eq_true_eq] at hw4
    exact hw4.1.1
  have hchain : ∀ w ∈ (twoHops views lm v1 v2).take max_paths,
      chainPose scaleOf rel v1 w v2 =
      ((edgeRT rel (w, v2) false).1 * (rel (v1, w)).Rd,
       (edgeRT rel (w, v2) false).1.mulVec (rel (v1, w)).td +
         (pairScale scaleOf rel
             ⟨(v1, w), (rel (v1, w)).triang, (rel (v1, w)).ts⟩ (w, v2)).1 •
           (edgeRT rel (w, v2) false).2) := by
    intro w hw
    obtain ⟨hw1, hw2⟩ := hmem w hw
    exact chainPose_eq scaleOf rel v1 w v2 hw1 (fun he => hw2 he.symm)
  have hfst : (((twoHops views lm v1 v2).take max_paths).map
      (fun w => chainPose scaleOf rel v1 w v2)).map Prod.fst =
      ((twoHops views lm v1 v2).take max_paths).map (fun w =>
        (edgeRT rel (w, v2) false).1 * (rel (v1, w)).Rd) := by
    rw [List.map_map]
    refine List.map_congr_left ?_
    intro w hw
    rw [Function.comp_apply, hchain w hw]
  have hsnd : (((twoHops views lm v1 v2).take max_paths).map
      (fun w => chainPose scaleOf rel v1 w v2)).map Prod.snd =
      ((twoHops views lm v1 v2).take max_paths).map (fun w =>
        (edgeRT rel (w, v2) false).1.mulVec (rel (v1, w)).td +
          (pairScale scaleOf rel
              ⟨(v1, w), (rel (v1, w)).triang, (rel (v1, w)).ts⟩ (w, v2)).1 •
            (edgeRT rel (w, v2) false).2) := by
    rw [List.map_map]
    refine List.map_congr_left ?_
    intro w hw
    rw [Function.comp_apply, hchain w hw]
  refine ⟨?_, ?_, ?_, ?_⟩
  · show matMean ((rel (v1, v2)).Rd :: _) = _
    rw [hfst]
  · show vecMean ((rel (v1, v2)).td :: _) = _
    rw [hsnd]
  · show ((twoHops views lm v1 v2).take max_paths).length ≤ max_paths
    rw [List.length_take]
    exact min_le_left _ _
  · intro hzero
    show compute_relative_poses_robust scaleOf rel views lm v1 v2 max_paths = _
    unfold compute_relative_poses_robust
    rw [hzero]
    simp [matMean, vecMean]

/-- Claim C5 witness: with no alternate two-hop path between views 0 and 1,
the robust estimate equals the direct estimate and the notice is set. -/
theorem claim_C5_witness :
    compute_relative_poses_robust constScale c6rel [0, 1, 2] c9lm 0 1 5 =
      ⟨(c6rel (0, 1)).Rd, (c6rel (0, 1)).td, 0, true⟩ :=
  (claim_C5_robust constScale c6rel [0, 1, 2] c9lm 0 1 5 (by decide)).2.2.2
    (by decide)

/- ===================================================================
   Theorems for Section 4.
   =================================================================== -/

theorem perm_append_middle {α : Type} (A B P : List α) :
    (A ++ (B ++ P)).Perm (B ++ (A ++ P)) := by
  rw [← List.append_assoc, ← List.append_assoc]
  exact List.perm_append_comm.append_right P

theorem pairsOf_map_perm {α : Type} (g : ℕ → ℕ → α)
    (hg : ∀ i j, g i j = g j i) :
    ∀ {l1 l2 : List ℕ}, l1.Perm l2 →
      ((pairsOf l1).map (fun ij => g ij.1 ij.2)).Perm
        ((pairsOf l2).map (fun ij => g ij.1 ij.2)) := by
  intro l1 l2 hp
  induction hp with
  | nil => exact List.Perm.refl _
  | cons x hp ih =>
      simp only [pairsOf, List.map_append, List.map_map, Function.comp_def]
      exact List.Perm.append (List.Perm.map _ hp) (by
        simpa only [Function.comp_def] using ih)
  | swap x y l =>
      simp only [pairsOf, List.map_append, List.map_map, List.map_cons,
        Function.comp_def, List.cons_append]
      rw [hg y x]
      refine List.Perm.cons _ ?_
      exact perm_append_middle _ _ _
  | trans _ _ ih1 ih2 => exact ih1.trans ih2

theorem scalesClean_perm (rnorm : Pt → ℚ) (src dst : List Pt)
    (hsym : ∀ v : Pt, rnorm (-v) = rnorm v) {o1 o2 : List ℕ}
    (hperm : o1.Perm o2) :
    (scalesClean rnorm src dst o1).Perm (scalesClean rnorm src dst o2) := by
  unfold scalesClean
  have hmap : ∀ o : List ℕ,
      (pairsOf o).filterMap (fun ij =>
        if rnorm (getPt src ij.1 - getPt src ij.2) = 0 then none
        else if rnorm (getPt dst ij.1 - getPt dst ij.2) /
            rnorm (getPt src ij.1 - getPt src ij.2) < 50000 then
          some (rnorm (getPt dst ij.1 - getPt dst ij.2) /
            rnorm (getPt src ij.1 - getPt src ij.2))
        else none) =
      (((pairsOf o).map (fun ij =>
        if rnorm (getPt src ij.1 - getPt src ij.2) = 0 then none
        else if rnorm (getPt dst ij.1 - getPt dst ij.2) /
            rnorm (getPt src ij.1 - getPt src ij.2) < 50000 then
          some (rnorm (getPt dst ij.1 - getPt dst ij.2) /
            rnorm (getPt src ij.1 - getPt src ij.2))
        else none))).filterMap id := by
    intro o
    rw [List.filterMap_map]
    rfl
  rw [hmap o1, hmap o2]
  refine List.Perm.filterMap id ?_
  have hgsym : ∀ i j : ℕ,
      (if rnorm (getPt src i - getPt src j) = 0 then none
       else if rnorm (getPt dst i - getPt dst j) /
           rnorm (getPt src i - getPt src j) < 50000 then
         some (rnorm (getPt dst i - getPt dst j) /
           rnorm (getPt src i - getPt src j))
       else none) =
      (if rnorm (getPt src j - getPt src i) = 0 then none
       else if rnorm (getPt dst j - getPt dst i) /
           rnorm (getPt src j - getPt src i) < 50000 then
         some (rnorm (getPt dst j - getPt dst i) /
           rnorm (getPt src j - getPt src i))
       else none) := by
    intro i j
    have h1 : rnorm (getPt src j - getPt src i) =
        rnorm (getPt src i - getPt src j) := by
      rw [← hsym (getPt src i - getPt src j), neg_sub]
    have h2 : rnorm (getPt dst j - getPt dst i) =
        rnorm (getPt dst i - getPt dst j) := by
      rw [← hsym (getPt dst i - getPt dst j), neg_sub]
    rw [h1, h2]
  exact pairsOf_map_perm _ hgsym hperm

theorem meanQ_perm {l1 l2 : List ℚ} (h : l1.Perm l2) : meanQ l1 = meanQ l2 := by
  unfold meanQ
  rw [h.sum_eq, h.length_eq]

theorem varQ_perm {l1 l2 : List ℚ} (h : l1.Perm l2) : varQ l1 = varQ l2 := by
  unfold varQ
  rw [h.length_eq, meanQ_perm h, (h.map (fun x => (x - meanQ l2) ^ 2)).sum_eq]

theorem median_perm {l1 l2 : List ℚ} (h : l1.Perm l2) : median l1 = median l2 := by
  have hs1 : List.Sorted (fun a b : ℚ => a ≤ b) (sortQ l1) :=
    List.sorted_insertionSort _ l1
  have hs2 : List.Sorted (fun a b : ℚ => a ≤ b) (sortQ l2) :=
    List.sorted_insertionSort _ l2
  have hp : (sortQ l1).Perm (sortQ l2) :=
    (List.perm_insertionSort _ l1).trans
      (h.trans (List.perm_insertionSort _ l2).symm)
  have hsort : sortQ l1 = sortQ l2 := List.eq_of_perm_of_sorted hp hs1 hs2
  unfold median
  rw [h.length_eq, hsort]

/-- Claim C10: `estimate_scale_point_sets` is a deterministic function of
its input point sets despite the internal shuffle: permuting the index
order only permutes the multiset of pairwise distance ratios (each ratio is
symmetric in the unordered index pair), so the returned median scale and
standard deviation are identical for any two shuffle outcomes. -/
theorem claim_C10_deterministic (rnorm : Pt → ℚ) (sq : ℚ → ℚ)
    (src dst : List Pt) (o1 o2 : List ℕ)
    (hsym : ∀ v : Pt, rnorm (-v) = rnorm v)
    (hperm : o1.Perm o2) :
    estimate_scale_point_sets rnorm sq src dst o1 =
      estimate_scale_point_sets rnorm sq src dst o2 := by
  have hp := scalesClean_perm rnorm src dst hsym hperm
  unfold estimate_scale_point_sets
  rw [median_perm hp]
  unfold stdQ
  rw [hp.length_eq, varQ_perm hp]

theorem l1norm_neg (v : Pt) : l1norm (-v) = l1norm v := by
  unfold l1norm
  simp [Pi.neg_apply, abs_neg]

/-- Claim C10 witness: swapping the shuffle order on a concrete input
leaves the estimator's output unchanged. -/
theorem claim_C10_witness :
    estimate_scale_point_sets l1norm (fun x => x)
        [![0, 0, 0], ![1, 0, 0]] [![0, 0, 0], ![3, 0, 0]] [0, 1] =
      estimate_scale_point_sets l1norm (fun x => x)
        [![0, 0, 0], ![1, 0, 0]] [![0, 0, 0], ![3, 0, 0]] [1, 0] :=
  claim_C10_deterministic l1norm (fun x => x) _ _ [0, 1] [1, 0]
    l1norm_neg (List.Perm.swap 1 0 [])

theorem getPt_map_smul (k : ℚ) (l : List Pt) (i : ℕ) :
    getPt (l.map (k • ·)) i = k • getPt l i := by
  unfold getPt
  induction l generalizing i with
  | nil =>
      show (0 : Pt) = k • (0 : Pt)
      rw [smul_zero]
  | cons p l ih =>
      cases i with
      | zero => rfl
      | succ i => exact ih i

theorem scalesClean_const (rnorm : Pt → ℚ) (src : List Pt) (k : ℚ)
    (order : List ℕ)
    (hnh : ∀ (c : ℚ) (v : Pt), 0 ≤ c → rnorm (c • v) = c * rnorm v)
    (hk : 0 < k) (hk50 : k < 50000) :
    ∀ x ∈ scalesClean rnorm src (src.map (k • ·)) order, x = k := by
  intro x hx
  rcases List.mem_filterMap.1 hx with ⟨ij, _, hf⟩
  by_cases hd1 : rnorm (getPt src ij.1 - getPt src ij.2) = 0
  · rw [if_pos hd1] at hf; cases hf
  · rw [if_neg hd1] at hf
    have hd2 : rnorm (getPt (src.map (k • ·)) ij.1 -
        getPt (src.map (k • ·)) ij.2) =
        k * rnorm (getPt src ij.1 - getPt src ij.2) := by
      rw [getPt_map_smul, getPt_map_smul, ← smul_sub, hnh k _ (le_of_lt hk)]
    rw [hd2, mul_div_assoc, div_self hd1, mul_one] at hf
    rw [if_pos hk50] at hf
    injection hf with h2
    exact h2.symm

theorem scalesClean_ne_nil (rnorm : Pt → ℚ) (src : List Pt) (k : ℚ)
    (order : List ℕ)
    (hn0 : ∀ v : Pt, rnorm v = 0 ↔ v = 0)
    (hnh : ∀ (c : ℚ) (v : Pt), 0 ≤ c → rnorm (c • v) = c * rnorm v)
    (hk : 0 < k) (hk50 : k < 50000)
    (horder : order.Perm (List.range src.length))
    (hdist : ∃ i j, i < src.length ∧ j < src.length ∧
      getPt src i ≠ getPt src j) :
    scalesClean rnorm src (src.map (k • ·)) order ≠ [] := by
  obtain ⟨i, j, hi, hj, hij⟩ := hdist
  have hine : i ≠ j := fun he => hij (by rw [he])
  have hio : i ∈ order := horder.mem_iff.2 (List.mem_range.2 hi)
  have hjo : j ∈ order := horder.mem_iff.2 (List.mem_range.2 hj)
  have hval : ∀ a b : ℕ, getPt src a ≠ getPt src b →
      (if rnorm (getPt src a - getPt src b) = 0 then none
       else if rnorm (getPt (src.map (k • ·)) a -
           getPt (src.map (k • ·)) b) /
           rnorm (getPt src a - getPt src b) < 50000 then
         some (rnorm (getPt (src.map (k • ·)) a -
           getPt (src.map (k • ·)) b) /
           rnorm (getPt src a - getPt src b))
       else none) = some k := by
    intro a b hab
    have hd1 : rnorm (getPt src a - getPt src b) ≠ 0 :=
      fun hc => (sub_ne_zero.2 hab) ((hn0 _).1 hc)
    have hd2 : rnorm (getPt (src.map (k • ·)) a -
        getPt (src.map (k • ·)) b) =
        k * rnorm (getPt src a - getPt src b) := by
      rw [getPt_map_smul, getPt_map_smul, ← smul_sub, hnh k _ (le_of_lt hk)]
    rw [if_neg hd1, hd2, mul_div_assoc, div_self hd1, mul_one, if_pos hk50]
  rcases pairsOf_mem_of_mem hio hjo hine with hm | hm
  · exact List.ne_nil_of_mem (List.mem_filterMap.2 ⟨(i, j), hm, hval i j hij⟩)
  · exact List.ne_nil_of_mem
      (List.mem_filterMap.2 ⟨(j, i), hm, hval j i (Ne.symm hij)⟩)

theorem sorted_replicate (n : ℕ) (k : ℚ) :
    (List.replicate n k).Sorted (fun a b => a ≤ b) := by
  induction n with
  | zero => exact List.sorted_nil
  | succ n ih =>
      rw [List.replicate_succ]
      refine List.sorted_cons.2 ⟨?_, ih⟩
      intro b hb
      rw [(List.eq_of_mem_replicate hb)]

theorem sortQ_replicate (n : ℕ) (k : ℚ) :
    sortQ (List.replicate n k) = List.replicate n k :=
  List.eq_of_perm_of_sorted (List.perm_insertionSort _ _)
    (List.sorted_insertionSort _ _) (sorted_replicate n k)

theorem getD_replicate {n m : ℕ} (k : ℚ) (h : m < n) :
    (List.replicate n k).getD m 0 = k := by
  induction n generalizing m with
  | zero => omega
  | succ n ih =>
      rw [List.replicate_succ]
      cases m with
      | zero => rfl
      | succ m => exact ih (by omega)

theorem median_replicate {n : ℕ} (k : ℚ) (h : 0 < n) :
    median (List.replicate n k) = some k := by
  unfold median
  rw [List.length_replicate, sortQ_replicate]
  rw [if_neg (by omega)]
  by_cases hpar : n % 2 = 1
  · rw [if_pos hpar, getD_replicate k (by omega)]
  · rw [if_neg hpar, getD_replicate k (by omega), getD_replicate k (by omega)]
    rw [show (k + k) / 2 = k from by ring]

theorem median_const {l : List ℚ} {k : ℚ} (hne : l ≠ [])
    (hall : ∀ x ∈ l, x = k) : median l = some k := by
  have hrep : l = List.replicate l.length k := List.eq_replicate_of_mem hall
  rw [hrep]
  exact median_replicate k (List.length_pos.2 hne)

theorem zip_self {α : Type} (l : List α) : l.zip l = l.map (fun p => (p, p)) := by
  induction l with
  | nil => rfl
  | cons p l ih => simp [List.zip_cons_cons, ih]

theorem gram_cons (p : Pt) (l : List Pt) :
    gram (p :: l) (p :: l) = Matrix.of (fun a b => p a * p b) + gram l l := by
  funext a b
  show ((((p :: l).zip (p :: l)).map (fun qp => qp.1 a * qp.2 b)).sum) = _
  rw [List.zip_cons_cons, List.map_cons, List.sum_cons]
  rfl

theorem quadForm_add (M N : Mat) (x : Pt) :
    quadForm (M + N) x = quadForm M x + quadForm N x := by
  unfold quadForm
  rw [← Finset.sum_add_distrib]
  refine Finset.sum_congr rfl ?_
  intro a _
  rw [← Finset.sum_add_distrib]
  refine Finset.sum_congr rfl ?_
  intro b _
  show x a * (M a b + N a b) * x b = _
  ring

theorem quadForm_outer (p x : Pt) :
    quadForm (Matrix.of (fun a b => p a * p b)) x = dotQ p x ^ 2 := by
  unfold quadForm dotQ
  simp only [Fin.sum_univ_three, Matrix.of_apply]
  ring

theorem quadForm_gram (ps : List Pt) (x : Pt) :
    quadForm (gram ps ps) x = (ps.map (fun p => dotQ p x ^ 2)).sum := by
  induction ps with
  | nil =>
      unfold quadForm gram
      simp
  | cons p l ih =>
      rw [gram_cons, quadForm_add, quadForm_outer, List.map_cons,
        List.sum_cons, ih]

theorem quadForm_gram_nonneg (ps : List Pt) (x : Pt) :
    0 ≤ quadForm (gram ps ps) x := by
  rw [quadForm_gram]
  refine List.sum_nonneg ?_
  intro y hy
  rcases List.mem_map.1 hy with ⟨p, _, hp⟩
  rw [← hp]
  exact sq_nonneg _

theorem gram_symm (ps : List Pt) : (gram ps ps).transpose = gram ps ps := by
  funext a b
  show gram ps ps b a = gram ps ps a b
  unfold gram
  rw [zip_self, List.map_map, List.map_map]
  refine congrArg _ (List.map_congr_left ?_)
  intro p _
  show p b * p a = p a * p b
  ring

theorem trace_gram (ps : List Pt) :
    Matrix.trace (gram ps ps) = frobSq ps := by
  induction ps with
  | nil =>
      unfold gram frobSq
      simp [Matrix.trace]
  | cons p l ih =>
      rw [gram_cons]
      rw [Matrix.trace_add, ih]
      have h1 : Matrix.trace (Matrix.of (fun a b => p a * p b)) = dotQ p p := by
        unfold dotQ
        simp [Matrix.trace, Matrix.diag]
      rw [h1]
      show dotQ p p + frobSq l = frobSq (p :: l)
      unfold frobSq
      rw [List.map_cons, List.sum_cons]

theorem trace_transpose_conj (M A : Mat) :
    Matrix.trace (A.transpose * M * A) =
      ∑ j, quadForm M (fun i => A i j) := by
  unfold quadForm
  simp only [Matrix.trace, Matrix.diag, Matrix.mul_apply,
    Matrix.transpose_apply, Fin.sum_univ_three]
  ring

theorem trace_sub_expand (M R : Mat) (hsym : M.transpose = M)
    (hR : R.transpose * R = 1) :
    Matrix.trace ((1 - R).transpose * M * (1 - R)) =
      2 * Matrix.trace M - 2 * Matrix.trace (R.transpose * M) := by
  have hRR : R * R.transpose = 1 := Matrix.mul_eq_one_comm.1 hR
  have h1 : Matrix.trace (R.transpose * M * R) = Matrix.trace M := by
    rw [Matrix.trace_mul_comm, ← Matrix.mul_assoc, hRR, Matrix.one_mul]
  have h2 : Matrix.trace (M * R) = Matrix.trace (R.transpose * M) := by
    have h3 : M * R = (R.transpose * M).transpose := by
      rw [Matrix.transpose_mul, Matrix.transpose_transpose, hsym]
    rw [h3, Matrix.trace_transpose]
  have hmat : (1 - R).transpose * M * (1 - R)
      = M - R.transpose * M - (M * R - R.transpose * M * R) := by
    rw [Matrix.transpose_sub, Matrix.transpose_one]
    rw [sub_mul, one_mul, mul_sub, mul_one, sub_mul]
  rw [hmat, Matrix.trace_sub, Matrix.trace_sub, Matrix.trace_sub, h1, h2]
  ring

theorem orth_trace_le (M R : Mat) (hsym : M.transpose = M)
    (hpsd : ∀ x : Pt, 0 ≤ quadForm M x) (hR : R.transpose * R = 1) :
    Matrix.trace (R.transpose * M) ≤ Matrix.trace M := by
  have hpos : 0 ≤ Matrix.trace ((1 - R).transpose * M * (1 - R)) := by
    rw [trace_transpose_conj]
    exact Finset.sum_nonneg (fun j _ => hpsd _)
  have hexp := trace_sub_expand M R hsym hR
  linarith

theorem orth_trace_eq (M R : Mat) (hsym : M.transpose = M)
    (hpd : ∀ x : Pt, x ≠ 0 → 0 < quadForm M x) (hR : R.transpose * R = 1)
    (heq : Matrix.trace (R.transpose * M) = Matrix.trace M) : R = 1 := by
  have hpsd : ∀ x : Pt, 0 ≤ quadForm M x := by
    intro x
    by_cases hx : x = 0
    · subst hx
      unfold quadForm
      simp
    · exact le_of_lt (hpd x hx)
  have h0 : Matrix.trace ((1 - R).transpose * M * (1 - R)) = 0 := by
    rw [trace_sub_expand M R hsym hR, heq]
    ring
  rw [trace_transpose_conj] at h0
  have hz : ∀ j ∈ Finset.univ, quadForm M (fun i => (1 - R) i j) = 0 :=
    (Finset.sum_eq_zero_iff_of_nonneg (fun j _ => hpsd _)).1 h0
  have hcol : ∀ j, (fun i => (1 - R) i j) = (0 : Pt) := by
    intro j
    by_contra hc
    exact absurd (hz j (Finset.mem_univ j)) (ne_of_gt (hpd _ hc))
  have hzero : (1 - R) = (0 : Mat) := by
    funext i j
    exact congrFun (hcol j) i
  have := sub_eq_zero.1 hzero
  exact this.symm

theorem meanPt_map_smul (k : ℚ) (l : List Pt) :
    meanPt (l.map (k • ·)) = k • meanPt l := by
  funext i
  unfold meanPt
  simp only [Pi.smul_apply, smul_eq_mul, List.map_map, List.length_map]
  have h1 : (List.map ((fun p => p i) ∘ (k • ·)) l).sum
      = k * (List.map (fun p => p i) l).sum := by
    induction l with
    | nil => simp
    | cons p m ih =>
        simp only [List.map_cons, List.sum_cons, Function.comp_apply,
          Pi.smul_apply, smul_eq_mul] at *
        rw [ih]
        ring
  rw [h1]
  ring

theorem centerPts_map_smul (k : ℚ) (l : List Pt) :
    centerPts (l.map (k • ·)) = (centerPts l).map (k • ·) := by
  unfold centerPts
  rw [meanPt_map_smul, List.map_map, List.map_map]
  refine List.map_congr_left ?_
  intro p _
  show k • p - k • meanPt l = k • (p - meanPt l)
  rw [smul_sub]

theorem dotQ_smul_smul (k : ℚ) (p q : Pt) :
    dotQ (k • p) (k • q) = k ^ 2 * dotQ p q := by
  unfold dotQ
  simp only [Fin.sum_univ_three, Pi.smul_apply, smul_eq_mul]
  ring

theorem frobSq_map_smul (k : ℚ) (l : List Pt) :
    frobSq (l.map (k • ·)) = k ^ 2 * frobSq l := by
  unfold frobSq
  rw [List.map_map]
  induction l with
  | nil => simp
  | cons p m ih =>
      simp only [List.map_cons, List.sum_cons, Function.comp_apply] at *
      rw [ih, dotQ_smul_smul]
      ring

theorem scalePts_smul_cancel (k n : ℚ) (hk : k ≠ 0) (l : List Pt) :
    scalePts (k * n) (l.map (k • ·)) = scalePts n l := by
  unfold scalePts
  rw [List.map_map]
  refine List.map_congr_left ?_
  intro p _
  funext i
  show (k • p) i / (k * n) = p i / n
  rw [Pi.smul_apply, smul_eq_mul, mul_div_mul_left _ _ hk]

theorem l1norm_eq_zero (v : Pt) : l1norm v = 0 ↔ v = 0 := by
  constructor
  · intro h
    unfold l1norm at h
    have a0 := abs_nonneg (v 0)
    have a1 := abs_nonneg (v 1)
    have a2 := abs_nonneg (v 2)
    have h0 : |v 0| = 0 := by linarith
    have h1 : |v 1| = 0 := by linarith
    have h2 : |v 2| = 0 := by linarith
    funext i
    fin_cases i
    · exact abs_eq_zero.1 h0
    · exact abs_eq_zero.1 h1
    · exact abs_eq_zero.1 h2
  · intro h
    rw [h]
    unfold l1norm
    simp

theorem l1norm_smul (c : ℚ) (v : Pt) (hc : 0 ≤ c) :
    l1norm (c • v) = c * l1norm v := by
  unfold l1norm
  simp only [Pi.smul_apply, smul_eq_mul, abs_mul, abs_of_nonneg hc]
  ring

theorem frobSq_scalePts (n : ℚ) (l : List Pt) :
    frobSq (scalePts n l) = frobSq l / n ^ 2 := by
  unfold frobSq scalePts
  rw [List.map_map]
  induction l with
  | nil => simp
  | cons p m ih =>
      simp only [List.map_cons, List.sum_cons, Function.comp_apply] at *
      rw [ih]
      have hd : dotQ (fun i => p i / n) (fun i => p i / n)
          = dotQ p p / n ^ 2 := by
        unfold dotQ
        simp only [Fin.sum_univ_three]
        rw [div_mul_div_comm, div_mul_div_comm, div_mul_div_comm,
          div_add_div_same, div_add_div_same,
          show n * n = n ^ 2 from (pow_two n).symm]
      rw [hd]
      ring

/-- **C7** (corrected): for `dst = k • src` with `0 < k < 50000`, provided
`src` has two distinct points, the shuffled order enumerates the indices,
the square-root oracle is exact on the three values that occur, the
`orthogonal_procrustes` oracle satisfies its specification (orthogonal
output, score `tr(RᵀM)`, maximal over orthogonal matrices) at the matrix
the code hands it, and that matrix is positive definite (centered `src`
spans 3-space), `estimate_scale_point_sets` returns median scale exactly
`k` and `procrustes_registration` returns scale `k`, identity rotation and
zero translation (with zero mean residual distance). -/
theorem claim_C7_scale_recovery (rnorm : Pt → ℚ) (sq : ℚ → ℚ)
    (op : Mat → Mat × ℚ) (src : List Pt) (order : List ℕ) (k : ℚ)
    (hn0 : ∀ v : Pt, rnorm v = 0 ↔ v = 0)
    (hnh : ∀ (c : ℚ) (v : Pt), 0 ≤ c → rnorm (c • v) = c * rnorm v)
    (hk : 0 < k) (hk50 : k < 50000)
    (horder : order.Perm (List.range src.length))
    (hdist : ∃ i j, i < src.length ∧ j < src.length ∧
      getPt src i ≠ getPt src j)
    (hsq1 : sq (frobSq (centerPts src)) * sq (frobSq (centerPts src))
      = frobSq (centerPts src))
    (hsq2 : 0 < sq (frobSq (centerPts src)))
    (hsq3 : sq (k ^ 2 * frobSq (centerPts src))
      = k * sq (frobSq (centerPts src)))
    (horth : (op (procMatrix sq src (src.map (k • ·)))).1.transpose *
      (op (procMatrix sq src (src.map (k • ·)))).1 = 1)
    (hs : (op (procMatrix sq src (src.map (k • ·)))).2 =
      Matrix.trace ((op (procMatrix sq src (src.map (k • ·)))).1.transpose *
        procMatrix sq src (src.map (k • ·))))
    (hmax : ∀ R : Mat, R.transpose * R = 1 →
      Matrix.trace (R.transpose * procMatrix sq src (src.map (k • ·))) ≤
        (op (procMatrix sq src (src.map (k • ·)))).2)
    (hpd : ∀ x : Pt, x ≠ 0 →
      0 < quadForm (procMatrix sq src (src.map (k • ·))) x) :
    (estimate_scale_point_sets rnorm sq src (src.map (k • ·)) order).1
      = some k ∧
    procrustes_registration op sq rnorm src (src.map (k • ·))
      = some (k, 1, 0, 0) := by
  have hkne : k ≠ 0 := ne_of_gt hk
  have hnne : sq (frobSq (centerPts src)) ≠ 0 := ne_of_gt hsq2
  have hcd : centerPts (src.map (k • ·)) = (centerPts src).map (k • ·) :=
    centerPts_map_smul k src
  have hfd : frobSq (centerPts (src.map (k • ·)))
      = k ^ 2 * frobSq (centerPts src) := by
    rw [hcd, frobSq_map_smul]
  have hnd : sq (frobSq (centerPts (src.map (k • ·))))
      = k * sq (frobSq (centerPts src)) := by
    rw [hfd, hsq3]
  have hM : procMatrix sq src (src.map (k • ·))
      = gram (scalePts (sq (frobSq (centerPts src))) (centerPts src))
             (scalePts (sq (frobSq (centerPts src))) (centerPts src)) := by
    unfold procMatrix
    rw [hnd, hcd, scalePts_smul_cancel k _ hkne]
  have hsym : (procMatrix sq src (src.map (k • ·))).transpose
      = procMatrix sq src (src.map (k • ·)) := by
    rw [hM]
    exact gram_symm _
  have hpsd : ∀ x : Pt,
      0 ≤ quadForm (procMatrix sq src (src.map (k • ·))) x := by
    intro x
    rw [hM]
    exact quadForm_gram_nonneg _ x
  have hane : frobSq (centerPts src) ≠ 0 := by
    rw [← hsq1]
    exact mul_ne_zero hnne hnne
  have htr : Matrix.trace (procMatrix sq src (src.map (k • ·))) = 1 := by
    rw [hM, trace_gram, frobSq_scalePts, pow_two, hsq1, div_self hane]
  have hub : Matrix.trace (procMatrix sq src (src.map (k • ·)))
      ≤ (op (procMatrix sq src (src.map (k • ·)))).2 := by
    have h1 := hmax 1 (by rw [Matrix.transpose_one, Matrix.one_mul])
    rwa [Matrix.transpose_one, Matrix.one_mul] at h1
  have hlb : (op (procMatrix sq src (src.map (k • ·)))).2
      ≤ Matrix.trace (procMatrix sq src (src.map (k • ·))) := by
    rw [hs]
    exact orth_trace_le _ _ hsym hpsd horth
  have hseq : (op (procMatrix sq src (src.map (k • ·)))).2 = 1 := by
    rw [← htr]
    exact le_antisymm hlb hub
  have hReq : (op (procMatrix sq src (src.map (k • ·)))).1 = 1 := by
    refine orth_trace_eq _ _ hsym hpd horth ?_
    rw [← hs, hseq, htr]
  constructor
  · unfold estimate_scale_point_sets
    show median (scalesClean rnorm src (src.map (k • ·)) order) = some k
    exact median_const
      (scalesClean_ne_nil rnorm src k order hn0 hnh hk hk50 horder hdist)
      (scalesClean_const rnorm src k order hnh hk hk50)
  · unfold procrustes_registration
    rw [if_neg (not_ne_iff.2 (List.length_map _ _).symm)]
    rw [if_neg (not_or.2 ⟨hnne, by rw [hnd]; exact mul_ne_zero hkne hnne⟩)]
    have hscale : (op (procMatrix sq src (src.map (k • ·)))).2 *
        sq (frobSq (centerPts (src.map (k • ·)))) /
        sq (frobSq (centerPts src)) = k := by
      rw [hseq, hnd, one_mul, mul_div_assoc, div_self hnne, mul_one]
    have hmean : meanPt (src.map (k • ·)) = k • meanPt src :=
      meanPt_map_smul k src
    rw [hscale, hReq]
    have ht0 : meanPt (src.map (k • ·)) - k • (1 : Mat).mulVec (meanPt src)
        = 0 := by
      rw [Matrix.one_mulVec, hmean, sub_self]
    rw [ht0]
    have htransform : apply_rigid_transform src (1 : Mat) (0 : Pt) k
        = src.map (k • ·) := by
      unfold apply_rigid_transform
      refine List.map_congr_left ?_
      intro x _
      rw [Matrix.one_mulVec, add_zero]
    rw [htransform]
    have hdist0 : average_distance rnorm (src.map (k • ·)) (src.map (k • ·))
        = 0 := by
      unfold average_distance
      rw [zip_self, List.map_map]
      have hsum : ((src.map (k • ·)).map
          ((fun xy : Pt × Pt => rnorm (xy.1 - xy.2)) ∘
            fun p => (p, p))).sum = 0 := by
        refine List.sum_eq_zero ?_
        intro x hx
        rcases List.mem_map.1 hx with ⟨p, _, hp⟩
        rw [← hp]
        show rnorm (p - p) = 0
        rw [sub_self]
        exact (hn0 0).2 rfl
      rw [hsum, zero_div]
    rw [hdist0]

theorem witFrob : frobSq (centerPts witSrc) = 36 := by
  norm_num [frobSq, centerPts, meanPt, witSrc, dotQ, Fin.sum_univ_three,
    Matrix.vecHead, Matrix.vecTail]

theorem witM_eq :
    procMatrix witSq witSrc (witSrc.map ((2 : ℚ) • ·)) = witM := by
  funext a b
  show gram (scalePts (witSq (frobSq (centerPts (witSrc.map ((2 : ℚ) • ·)))))
      (centerPts (witSrc.map ((2 : ℚ) • ·))))
    (scalePts (witSq (frobSq (centerPts witSrc))) (centerPts witSrc)) a b
    = witM a b
  fin_cases a <;> fin_cases b <;>
    norm_num [gram, scalePts, centerPts, meanPt, frobSq, dotQ, witSq, witSrc,
      witM, Fin.sum_univ_three, List.zip_cons_cons, Matrix.vecHead,
      Matrix.vecTail]

/-- Claim C7 witness: on the six-point full-rank set `witSrc` with `k = 2`,
the exact oracles `witSq`/`witOp`/`l1norm` satisfy every hypothesis and
both estimators recover scale 2, identity rotation and zero translation. -/
theorem claim_C7_witness :
    (estimate_scale_point_sets l1norm witSq witSrc
        (witSrc.map ((2 : ℚ) • ·)) (List.range 6)).1 = some 2 ∧
    procrustes_registration witOp witSq l1norm witSrc
        (witSrc.map ((2 : ℚ) • ·)) = some (2, 1, 0, 0) :=
  claim_C7_scale_recovery l1norm witSq witOp witSrc (List.range 6) 2
    l1norm_eq_zero
    (fun c v hc => l1norm_smul c v hc)
    (by norm_num)
    (by norm_num)
    (List.Perm.refl _)
    ⟨0, 1, by norm_num [witSrc], by norm_num [witSrc],
      by
        intro h
        have h2 := congrFun h 0
        norm_num [witSrc, getPt] at h2⟩
    (by rw [witFrob]; norm_num [witSq])
    (by rw [witFrob]; norm_num [witSq])
    (by rw [witFrob]; norm_num [witSq])
    (by
      show (1 : Mat).transpose * (1 : Mat) = 1
      rw [Matrix.transpose_one, Matrix.one_mul])
    (by
      show (1 : ℚ) = Matrix.trace ((1 : Mat).transpose *
        procMatrix witSq witSrc (witSrc.map ((2 : ℚ) • ·)))
      rw [Matrix.transpose_one, Matrix.one_mul, witM_eq]
      simp only [Matrix.trace, Matrix.diag, Fin.sum_univ_three, witM]
      norm_num)
    (by
      intro R hR
      show Matrix.trace (R.transpose *
        procMatrix witSq witSrc (witSrc.map ((2 : ℚ) • ·))) ≤ (1 : ℚ)
      rw [witM_eq]
      have h00 := congrFun (congrFun hR 0) 0
      have h11 := congrFun (congrFun hR 1) 1
      have h22 := congrFun (congrFun hR 2) 2
      simp only [Matrix.mul_apply, Matrix.transpose_apply, Matrix.one_apply,
        Fin.sum_univ_three, eq_self_iff_true, if_true] at h00 h11 h22
      have htr : Matrix.trace (R.transpose * witM)
          = R 0 0 / 18 + R 1 1 / 18 + 8 / 9 * R 2 2 := by
        simp only [Matrix.trace, Matrix.diag, Matrix.mul_apply,
          Matrix.transpose_apply, witM, Fin.sum_univ_three]
        norm_num [Matrix.vecHead, Matrix.vecTail]
        ring
      rw [htr]
      nlinarith [sq_nonneg (R 0 0 - 1), sq_nonneg (R 1 1 - 1),
        sq_nonneg (R 2 2 - 1), sq_nonneg (R 1 0), sq_nonneg (R 2 0),
        sq_nonneg (R 0 1), sq_nonneg (R 2 1), sq_nonneg (R 0 2),
        sq_nonneg (R 1 2)])
    (by
      intro x hx
      rw [witM_eq]
      have hq : quadForm witM x
          = x 0 * x 0 / 18 + x 1 * x 1 / 18 + 8 / 9 * (x 2 * x 2) := by
        simp only [quadForm, witM, Fin.sum_univ_three]
        norm_num [Matrix.vecHead, Matrix.vecTail]
        ring
      rw [hq]
      have hex : x 0 ≠ 0 ∨ x 1 ≠ 0 ∨ x 2 ≠ 0 := by
        by_contra hc
        push_neg at hc
        refine hx (funext fun i => ?_)
        fin_cases i
        · exact hc.1
        · exact hc.2.1
        · exact hc.2.2
      rcases hex with h | h | h <;>
        nlinarith [mul_self_nonneg (x 0), mul_self_nonneg (x 1),
          mul_self_nonneg (x 2), mul_self_pos.2 h])

/-- Claim C7 counterexample: two failures of the claim as stated. (a) With
`k = 50000` on two distinct points the cross-ratio estimator returns `none`
(the NaN median of an empty ratio list), not `k`: every ratio hits the
`max_est = 50000` cap. (b) On the collinear set `c7P` with `k = 3`, the
oracle `c7op` satisfies the full `orthogonal_procrustes` specification —
orthogonal output, score `tr(RᵀM)`, maximal among all orthogonal matrices —
at the very matrix `c7M` the code hands it, yet `procrustes_registration`
returns the reflection `Rrefl ≠ 1` as its rotation: identity rotation is
not guaranteed for rank-deficient point sets. -/
theorem claim_C7_counterexample :
    (estimate_scale_point_sets l1norm c7sq [![0, 0, 0], ![1, 0, 0]]
        ([![0, 0, 0], ![1, 0, 0]].map ((50000 : ℚ) • ·)) [0, 1]).1 = none ∧
    procMatrix c7sq c7P (c7P.map ((3 : ℚ) • ·)) = c7M ∧
    Rrefl.transpose * Rrefl = 1 ∧
    (c7op c7M).2 = Matrix.trace (Rrefl.transpose * c7M) ∧
    (∀ R : Mat, R.transpose * R = 1 →
      Matrix.trace (R.transpose * c7M) ≤ (c7op c7M).2) ∧
    procrustes_registration c7op c7sq l1norm c7P (c7P.map ((3 : ℚ) • ·))
      = some (3, Rrefl, 0, 0) ∧
    Rrefl ≠ 1 := by
  refine ⟨?_, ?_, ?_, ?_, ?_, ?_, ?_⟩
  · show median (scalesClean l1norm [![0, 0, 0], ![1, 0, 0]]
        ([![0, 0, 0], ![1, 0, 0]].map ((50000 : ℚ) • ·)) [0, 1]) = none
    have h1 : scalesClean l1norm [![0, 0, 0], ![1, 0, 0]]
        ([![0, 0, 0], ![1, 0, 0]].map ((50000 : ℚ) • ·)) [0, 1] = [] := by
      unfold scalesClean
      rw [show pairsOf [0, 1] = [(0, 1)] from rfl]
      simp only [List.filterMap_cons, List.filterMap_nil]
      rw [show getPt [![0, 0, 0], ![1, 0, 0]] 0 = ![0, 0, 0] from rfl,
        show getPt [![0, 0, 0], ![1, 0, 0]] 1 = ![1, 0, 0] from rfl,
        show getPt ([![0, 0, 0], ![1, 0, 0]].map ((50000 : ℚ) • ·)) 0
          = (50000 : ℚ) • ![0, 0, 0] from rfl,
        show getPt ([![0, 0, 0], ![1, 0, 0]].map ((50000 : ℚ) • ·)) 1
          = (50000 : ℚ) • ![1, 0, 0] from rfl]
      norm_num [l1norm, Matrix.vecHead, Matrix.vecTail]
    rw [h1]
    rfl
  · funext a b
    show gram (scalePts (c7sq (frobSq (centerPts (c7P.map ((3 : ℚ) • ·)))))
        (centerPts (c7P.map ((3 : ℚ) • ·))))
      (scalePts (c7sq (frobSq (centerPts c7P))) (centerPts c7P)) a b
      = c7M a b
    fin_cases a <;> fin_cases b <;>
      norm_num [gram, scalePts, centerPts, meanPt, frobSq, dotQ, c7sq, c7P,
        c7M, Fin.sum_univ_three, List.zip_cons_cons, Matrix.vecHead,
        Matrix.vecTail]
  · funext a b
    fin_cases a <;> fin_cases b <;>
      norm_num [Rrefl, Matrix.mul_apply, Matrix.transpose_apply,
        Matrix.one_apply, Fin.sum_univ_three, Matrix.vecHead,
        Matrix.vecTail] <;>
      rw [if_neg (by decide)]
  · show (1 : ℚ) = Matrix.trace (Rrefl.transpose * c7M)
    simp only [Matrix.trace, Matrix.diag, Matrix.mul_apply,
      Matrix.transpose_apply, Rrefl, c7M, Fin.sum_univ_three]
    norm_num [Matrix.vecHead, Matrix.vecTail]
  · intro R hR
    show Matrix.trace (R.transpose * c7M) ≤ (1 : ℚ)
    have h00 := congrFun (congrFun hR 0) 0
    simp only [Matrix.mul_apply, Matrix.transpose_apply, Matrix.one_apply,
      Fin.sum_univ_three, eq_self_iff_true, if_true] at h00
    have htr : Matrix.trace (R.transpose * c7M) = R 0 0 := by
      simp only [Matrix.trace, Matrix.diag, Matrix.mul_apply,
        Matrix.transpose_apply, c7M, Fin.sum_univ_three]
      norm_num [Matrix.vecHead, Matrix.vecTail]
    rw [htr]
    nlinarith [sq_nonneg (R 0 0 - 1), sq_nonneg (R 1 0), sq_nonneg (R 2 0)]
  · have hc4 : frobSq (centerPts c7P) = 4 := by
      norm_num [frobSq, centerPts, meanPt, c7P, dotQ, Fin.sum_univ_three,
        Matrix.vecHead, Matrix.vecTail]
    have hcd : centerPts (c7P.map ((3 : ℚ) • ·))
        = (centerPts c7P).map ((3 : ℚ) • ·) := centerPts_map_smul 3 c7P
    have hc36 : frobSq (centerPts (c7P.map ((3 : ℚ) • ·))) = 36 := by
      rw [hcd, frobSq_map_smul, hc4]
      norm_num
    have hm0 : meanPt c7P = 0 := by
      funext i
      fin_cases i <;>
        norm_num [meanPt, c7P, Matrix.vecHead, Matrix.vecTail]
    have hmd : meanPt (c7P.map ((3 : ℚ) • ·)) = 0 := by
      rw [meanPt_map_smul, hm0, smul_zero]
    unfold procrustes_registration
    rw [if_neg (not_ne_iff.2 (List.length_map _ _).symm)]
    rw [hc4, hc36]
    rw [if_neg (by norm_num [c7sq])]
    have hop1 : (c7op (procMatrix c7sq c7P (c7P.map ((3 : ℚ) • ·)))).1
        = Rrefl := rfl
    have hop2 : (c7op (procMatrix c7sq c7P (c7P.map ((3 : ℚ) • ·)))).2
        = (1 : ℚ) := rfl
    have hs36 : c7sq 36 = 6 := by norm_num [c7sq]
    have hs4 : c7sq 4 = 2 := by norm_num [c7sq]
    rw [hop1, hop2, hm0, hmd, hs36, hs4]
    have hsc : (1 : ℚ) * 6 / 2 = 3 := by norm_num
    rw [hsc]
    have ht : (0 : Pt) - (3 : ℚ) • Rrefl.mulVec 0 = 0 := by
      rw [Matrix.mulVec_zero, smul_zero, sub_zero]
    rw [ht]
    have htf : apply_rigid_transform c7P Rrefl (0 : Pt) 3
        = c7P.map ((3 : ℚ) • ·) := by
      unfold apply_rigid_transform
      norm_num [c7P, Rrefl, Matrix.mulVec, Matrix.dotProduct,
        Fin.sum_univ_three, Matrix.vecHead, Matrix.vecTail]
    rw [htf]
    have had : average_distance l1norm (c7P.map ((3 : ℚ) • ·))
        (c7P.map ((3 : ℚ) • ·)) = 0 := by
      unfold average_distance
      rw [zip_self, List.map_map]
      have hsum : ((c7P.map ((3 : ℚ) • ·)).map
          ((fun xy : Pt × Pt => l1norm (xy.1 - xy.2)) ∘
            fun p => (p, p))).sum = 0 := by
        refine List.sum_eq_zero ?_
        intro x hx
        rcases List.mem_map.1 hx with ⟨p, _, hp⟩
        rw [← hp]
        show l1norm (p - p) = 0
        rw [sub_self]
        exact (l1norm_eq_zero 0).2 rfl
      rw [hsum, zero_div]
    rw [had]
  · intro h
    have h2 := congrFun (congrFun h 1) 1
    norm_num [Rrefl, Matrix.one_apply] at h2

end MVCalib
